import Mathlib

/-!
Verification of the `queryalternatives` parser (package queryalternatives,
file queryalternatives.go) against its natural-language specification.

The parser consumes a byte stream and produces one `Alternatives` record or a
`ParseError`.  We embed the byte stream as a `List Char`, Go maps as
association lists with Go's "set key" semantics, and Go's
`(*Alternatives, error)` return as `Except ParseError Alternatives`
(the Go code returns a nil record exactly when it returns an error).
Loops that are not structurally recursive are written with an explicit fuel
parameter; the exported wrappers instantiate the fuel with `input.length + 1`,
which is proved sufficient, so every definition is executable.
-/

namespace QueryAlternatives

/-- String literal to character list. -/
def chars (s : String) : List Char := s.data

/-- Embeds Go struct `Alternative` (Slaves map as an association list). -/
structure Alternative where
  Path : List Char
  Priority : Int
  Slaves : List (List Char × List Char)
deriving Repr, DecidableEq

/-- Embeds Go struct `Alternatives`. -/
structure Alternatives where
  Name : List Char
  Link : List Char
  Slaves : List (List Char × List Char)
  Status : List Char
  Best : List Char
  Value : List Char
  Alternatives : List Alternative
deriving Repr, DecidableEq

/-- Embeds Go struct `ParseError`. -/
structure ParseError where
  Message : List Char
  Line : Nat
deriving Repr, DecidableEq

instance {ε α : Type} [DecidableEq ε] [DecidableEq α] :
    DecidableEq (Except ε α) := fun a b =>
  match a, b with
  | .error x, .error y =>
    if h : x = y then isTrue (h ▸ rfl)
    else isFalse (fun hc => h (Except.noConfusion hc id))
  | .ok x, .ok y =>
    if h : x = y then isTrue (h ▸ rfl)
    else isFalse (fun hc => h (Except.noConfusion hc id))
  | .error _, .ok _ => isFalse (fun hc => Except.noConfusion hc)
  | .ok _, .error _ => isFalse (fun hc => Except.noConfusion hc)

/-- Embeds `newAlternative`: zero-valued fields, fresh empty Slaves map. -/
def newAlternative : Alternative := ⟨[], 0, []⟩

/-- Embeds `newAlternatives`: zero-valued fields, fresh empty Slaves map and
empty (non-nil) Alternatives slice. -/
def newAlternatives : Alternatives := ⟨[], [], [], [], [], [], []⟩

/-- Embeds `bytes.TrimRight(l, "\r\n")`: drop trailing CR and LF characters. -/
def trimRightRN (l : List Char) : List Char :=
  (l.reverse.dropWhile (fun c => c == '\r' || c == '\n')).reverse

/-- Embeds `bytes.TrimLeft(l, " ")`: drop leading spaces. -/
def trimLeftSp (l : List Char) : List Char :=
  l.dropWhile (fun c => c == ' ')

/-- Embeds `bufio.Reader.ReadBytes('\n')` on the remaining input: returns the
raw line including its terminating newline (when found), the rest of the
input, and whether end of stream was reached before a newline (`io.EOF`). -/
def readLine : List Char → List Char × List Char × Bool
  | [] => ([], [], true)
  | c :: cs =>
    if c = '\n' then ([c], cs, false)
    else
      let r := readLine cs
      (c :: r.1, r.2.1, r.2.2)

/-- Embeds `bytes.SplitN(l, [sep], 2)`: split at the first occurrence of
`sep`; `none` when `sep` does not occur (Go returns a one-element slice). -/
def splitFirst (sep : Char) : List Char → Option (List Char × List Char)
  | [] => none
  | c :: cs =>
    if c = sep then some ([], cs)
    else (splitFirst sep cs).map (fun p => (c :: p.1, p.2))

/-- Embeds `strings.Split(l, "\n")`: Go's Split, which yields `[""]` on the
empty string. -/
def splitOnNL : List Char → List (List Char)
  | [] => [[]]
  | c :: cs =>
    if c = '\n' then [] :: splitOnNL cs
    else
      match splitOnNL cs with
      | [] => [[c]]
      | l :: ls => (c :: l) :: ls

/-- Embeds a Go map assignment `m[k] = v` on the association-list model:
replace the existing binding of `k` in place, or append a new one. -/
def mapSet (m : List (List Char × List Char)) (k v : List Char) :
    List (List Char × List Char) :=
  if m.any (fun p => p.1 == k) then
    m.map (fun p => if p.1 == k then (k, v) else p)
  else m ++ [(k, v)]

/-- Embeds `strconv.Atoi` (as `ParseInt(s, 10, 0)` with 64-bit `int`):
an optional leading sign, then one or more decimal digits, and the value must
lie within the `int64` range; `none` on any failure (including range
errors). -/
def atoi (s : List Char) : Option Int :=
  let ds := if s.head? = some '+' ∨ s.head? = some '-' then s.tail else s
  if ds = [] then none
  else if ds.all (fun c => '0' ≤ c && c ≤ '9') then
    let n : Nat := ds.foldl (fun a c => a * 10 + (c.toNat - '0'.toNat)) 0
    let z : Int := (if s.head? = some '-' then -1 else 1) * n
    if -(2 ^ 63) ≤ z ∧ z ≤ 2 ^ 63 - 1 then some z else none
  else none

/-- Fueled embedding of the blank-skipping read loop at the top of
`Parser.readKeyValue` (lines 95–112): read physical lines, trim trailing
CR/LF, skip empty (blank) lines, and return the first non-blank trimmed line
together with the rest of the input and the updated line counter; `none`
models returning `io.EOF`. -/
def seekLineF : Nat → List Char → Nat → Option (List Char × List Char × Nat)
  | 0, _, _ => none
  | fuel + 1, input, lineNo =>
    let r := readLine input
    let line := trimRightRN r.1
    if r.2.2 then
      if line = [] then none
      else some (line, r.2.1, lineNo + 1)
    else
      if line = [] then seekLineF fuel r.2.1 (lineNo + 1)
      else some (line, r.2.1, lineNo + 1)

/-- `seekLineF` with sufficient fuel. -/
def seekLine (input : List Char) (lineNo : Nat) :
    Option (List Char × List Char × Nat) :=
  seekLineF (input.length + 1) input lineNo

/-- The value-append of the continuation loop: join with a newline unless the
accumulated value is still empty (`value.Len() > 0` check, lines 151–154). -/
def contAppend (v line : List Char) : List Char :=
  if 0 < v.length then v ++ '\n' :: line else v ++ line

/-- Fueled embedding of the continuation loop of `Parser.readKeyValue`
(lines 126–155): while the next raw character is a space, consume the line,
strip leading spaces and trailing CR/LF, and append it to the value joined by
a newline; stop at end of stream, at a non-space lookahead, or when end of
stream is reached with an empty trimmed line. -/
def readContF : Nat → List Char → List Char → Nat → List Char × List Char × Nat
  | 0, input, v, lineNo => (v, input, lineNo)
  | fuel + 1, input, v, lineNo =>
    match input with
    | [] => (v, [], lineNo)
    | c :: _ =>
      if c ≠ ' ' then (v, input, lineNo)
      else
        let r := readLine input
        let line := trimRightRN (trimLeftSp r.1)
        if r.2.2 ∧ line = [] then (v, r.2.1, lineNo)
        else readContF fuel r.2.1 (contAppend v line) (lineNo + 1)

/-- `readContF` with sufficient fuel. -/
def readCont (input : List Char) (v : List Char) (lineNo : Nat) :
    List Char × List Char × Nat :=
  readContF (input.length + 1) input v lineNo

/-- Embeds `Parser.readKeyValue`: seek the next non-blank line, split it at
the first colon into key and value (malformed-line error when there is no
colon), trim the value, then absorb continuation lines.  `ok none` models
the `io.EOF` return that `Parse` treats as normal termination. -/
def readKeyValue (input : List Char) (lineNo : Nat) :
    Except ParseError (Option ((List Char × List Char) × List Char × Nat)) :=
  match seekLine input lineNo with
  | none => .ok none
  | some (line, rest, n) =>
    match splitFirst ':' line with
    | none => .error ⟨chars "malformed line", n⟩
    | some (k, v0) =>
      let v1 := trimRightRN (trimLeftSp v0)
      let r := readCont rest v1 n
      .ok (some ((k, r.1), r.2.1, r.2.2))

/-- The loop body of `Parser.parseSlaves`: split each line at the first
space into (name, path) and assign into the map; error on a line without a
space. -/
def parseSlavesLoop : List (List Char) → List (List Char × List Char) → Nat →
    Except ParseError (List (List Char × List Char))
  | [], slaves, _ => .ok slaves
  | line :: ls, slaves, lineNo =>
    match splitFirst ' ' line with
    | none => .error ⟨chars "malformed slaves line", lineNo⟩
    | some (name, path) => parseSlavesLoop ls (mapSet slaves name path) lineNo

/-- Embeds `Parser.parseSlaves`: split the joined value on newlines and build
the slave map.  `lineNo` is the parser's line counter at call time, used for
error reporting. -/
def parseSlaves (input : List Char) (lineNo : Nat) :
    Except ParseError (List (List Char × List Char)) :=
  parseSlavesLoop (splitOnNL input) [] lineNo

/-- One dispatch step of `Parser.Parse` on a (key, value) pair: the two-state
switch (lines 189–245).  `currentAlt = none` is the header state; `some alt`
is the in-alternative state.  Returns the updated (record, current entry)
pair, or the error that aborts the parse. -/
def parseStep (k v : List Char) (n : Nat) (result : Alternatives)
    (currentAlt : Option Alternative) :
    Except ParseError (Alternatives × Option Alternative) :=
  match currentAlt with
  | none =>
    if k = chars "Name" then .ok ({ result with Name := v }, none)
    else if k = chars "Link" then .ok ({ result with Link := v }, none)
    else if k = chars "Slaves" then
      match parseSlaves v n with
      | .error e => .error e
      | .ok s => .ok ({ result with Slaves := s }, none)
    else if k = chars "Status" then .ok ({ result with Status := v }, none)
    else if k = chars "Best" then .ok ({ result with Best := v }, none)
    else if k = chars "Value" then .ok ({ result with Value := v }, none)
    else if k = chars "Alternative" then
      .ok (result, some { newAlternative with Path := v })
    else .error ⟨chars "unexpected key: " ++ k, n⟩
  | some alt =>
    if k = chars "Priority" then
      match atoi v with
      | none => .error ⟨chars "invalid priority value", n⟩
      | some p => .ok (result, some { alt with Priority := p })
    else if k = chars "Slaves" then
      match parseSlaves v n with
      | .error e => .error e
      | .ok s => .ok (result, some { alt with Slaves := s })
    else if k = chars "Alternative" then
      .ok ({ result with
              Alternatives := result.Alternatives ++ [alt] },
           some { newAlternative with Path := v })
    else .error ⟨chars "unexpected key: " ++ k, n⟩

/-- On end of stream, `Parse` appends the in-progress alternative, if any
(lines 248–251), and returns the record. -/
def finalize (result : Alternatives) (currentAlt : Option Alternative) :
    Alternatives :=
  match currentAlt with
  | none => result
  | some alt => { result with Alternatives := result.Alternatives ++ [alt] }

/-- Fueled embedding of the main loop of `Parser.Parse` (lines 180–246). -/
def parseLoopF : Nat → List Char → Nat → Alternatives → Option Alternative →
    Except ParseError Alternatives
  | 0, _, _, result, currentAlt => .ok (finalize result currentAlt)
  | fuel + 1, input, lineNo, result, currentAlt =>
    match readKeyValue input lineNo with
    | .error e => .error e
    | .ok none => .ok (finalize result currentAlt)
    | .ok (some ((k, v), rest, n)) =>
      match parseStep k v n result currentAlt with
      | .error e => .error e
      | .ok (result', currentAlt') => parseLoopF fuel rest n result' currentAlt'

/-- `parseLoopF` with sufficient fuel. -/
def parseLoop (input : List Char) (lineNo : Nat) (result : Alternatives)
    (currentAlt : Option Alternative) : Except ParseError Alternatives :=
  parseLoopF (input.length + 1) input lineNo result currentAlt

/-- Embeds `Parser.Parse` started on a fresh parser (line counter 0), as
`ParseString` does via `strings.NewReader`. -/
def parseString (input : List Char) : Except ParseError Alternatives :=
  parseLoop input 0 newAlternatives none

/-! ### Step equations for `readCont` -/

/-- The trimming applied to a raw continuation line (line 139 of the source):
leading spaces and trailing CR/LF removed. -/
def contLine (l : List Char) : List Char := trimRightRN (trimLeftSp l)

/-! ### Line plans: inputs described as logical lines with chosen line endings -/

/-- A line terminator accepted by the format: LF or CRLF. -/
def IsNL (nl : List Char) : Prop := nl = ['\n'] ∨ nl = ['\r', '\n']

/-- Flatten a list of (line content, line terminator) pairs into an input. -/
def renderPlan : List (List Char × List Char) → List Char
  | [] => []
  | (l, nl) :: rest => l ++ (nl ++ renderPlan rest)

/-- Well-formed plan: contents are newline-free and every terminator is LF or
CRLF, except that the final line may have no terminator at all. -/
def PlanWF : List (List Char × List Char) → Prop
  | [] => True
  | (l, nl) :: rest => '\n' ∉ l ∧ (IsNL nl ∨ (nl = [] ∧ rest = [])) ∧ PlanWF rest

/-- The first line of the plan, if any, does not begin with a space. -/
def NotSpaceHead : List (List Char × List Char) → Prop
  | [] => True
  | (l, _) :: _ => l.head? ≠ some ' '

/-- The value accumulated by the continuation loop over a list of
already-trimmed continuation lines. -/
def contValue : List Char → List (List Char) → List Char
  | v, [] => v
  | v, l :: ls => contValue (contAppend v l) ls

/-! ### The joined continuation value and the slave-list sub-parser -/

/-- Newline-joined list of lines (the shape `readKeyValue` produces for a
multi-line value). -/
def joinNL : List (List Char) → List Char
  | [] => []
  | [l] => l
  | l :: ls => l ++ '\n' :: joinNL ls

/-! ### The grammar of section 6, at the level of literal values -/

/-- One slave entry as written in the input. -/
structure SlaveLine where
  name : List Char
  path : List Char
deriving Repr, DecidableEq

/-- One `Alternative` block of the grammar: the literal path, the literal
priority text, and the optional slave list. -/
structure GAlt where
  path : List Char
  prio : List Char
  slaves : Option (List SlaveLine)
deriving Repr, DecidableEq

/-- The header of the grammar: the literal field values and the optional
slave list. -/
structure GHeader where
  name : List Char
  link : List Char
  slaves : Option (List SlaveLine)
  status : List Char
  best : List Char
  value : List Char
deriving Repr, DecidableEq

/-- The text of one slave line: one space, the name, one space, the path. -/
def slaveLineText (p : SlaveLine) : List Char := ' ' :: (p.name ++ ' ' :: p.path)

/-- The lines contributed by an optional `Slaves:` block. -/
def slavesLines : Option (List SlaveLine) → List (List Char)
  | none => []
  | some sl => chars "Slaves: " :: sl.map slaveLineText

/-- The header lines, in the fixed order of the grammar. -/
def headerLines (h : GHeader) : List (List Char) :=
  [chars "Name: " ++ h.name, chars "Link: " ++ h.link]
    ++ slavesLines h.slaves
    ++ [chars "Status: " ++ h.status, chars "Best: " ++ h.best,
        chars "Value: " ++ h.value]

/-- The lines of one `Alternative` block. -/
def altLines (a : GAlt) : List (List Char) :=
  [chars "Alternative: " ++ a.path, chars "Priority: " ++ a.prio]
    ++ slavesLines a.slaves

/-- The lines of a list of blocks, each preceded by a chosen number of blank
lines. -/
def blocksLines : List (Nat × GAlt) → List (List Char)
  | [] => []
  | (b, a) :: rest => List.replicate b [] ++ altLines a ++ blocksLines rest

/-- Sign of an integer literal (specification side). -/
def intLitSign (s : List Char) : Int := if s.head? = some '-' then -1 else 1

/-- Digit part of an integer literal (specification side). -/
def intLitDigits (s : List Char) : List Char :=
  if s.head? = some '+' ∨ s.head? = some '-' then s.tail else s

/-- Numeric value denoted by an integer literal (specification side). -/
def intLitVal (s : List Char) : Int :=
  intLitSign s *
    ((intLitDigits s).foldl (fun a c => a * 10 + (c.toNat - '0'.toNat)) 0 : Nat)

/-- A base-10 integer literal: optional sign, one or more decimal digits,
value within the 64-bit signed range. -/
def IsIntLit (s : List Char) : Prop :=
  intLitDigits s ≠ [] ∧ (∀ c ∈ intLitDigits s, '0' ≤ c ∧ c ≤ '9') ∧
    -(2 ^ 63) ≤ intLitVal s ∧ intLitVal s ≤ 2 ^ 63 - 1

/-- The literal content of an optional slave list, as a mapping. -/
def slavesMapOf : Option (List SlaveLine) → List (List Char × List Char)
  | none => []
  | some sl => sl.map (fun p => (p.name, p.path))

/-- The record the grammar says a block denotes. -/
def toAlt (a : GAlt) : Alternative :=
  ⟨a.path, intLitVal a.prio, slavesMapOf a.slaves⟩

/-- The record the grammar says the whole input denotes. -/
def toRecord (h : GHeader) (alts : List GAlt) : Alternatives :=
  ⟨h.name, h.link, slavesMapOf h.slaves, h.status, h.best, h.value,
    alts.map toAlt⟩

/-- Well-formed slave entry: nonempty name without spaces, and no CR/LF in
either component. -/
def SlWF (p : SlaveLine) : Prop :=
  p.name ≠ [] ∧ ' ' ∉ p.name ∧ '\n' ∉ p.name ∧ '\r' ∉ p.name ∧
    '\n' ∉ p.path ∧ '\r' ∉ p.path

/-- Well-formed optional slave list: when present it is nonempty
(`slaveline+` in the grammar), entries are well formed, names are distinct. -/
def SlavesWF : Option (List SlaveLine) → Prop
  | none => True
  | some sl => sl ≠ [] ∧ (∀ p ∈ sl, SlWF p) ∧ (sl.map SlaveLine.name).Nodup

/-- Well-formed literal token: no newline or carriage return, not starting
with a space. -/
def GoodTok (t : List Char) : Prop :=
  '\n' ∉ t ∧ '\r' ∉ t ∧ t.head? ≠ some ' '

/-- Well-formed header content, including the `("auto"|"manual")` status of
the grammar. -/
def HeaderWF (h : GHeader) : Prop :=
  GoodTok h.name ∧ GoodTok h.link ∧
    (h.status = chars "auto" ∨ h.status = chars "manual") ∧
    GoodTok h.best ∧ GoodTok h.value ∧ SlavesWF h.slaves

/-- Well-formed block content. -/
def AltWF (a : GAlt) : Prop := GoodTok a.path ∧ IsIntLit a.prio ∧ SlavesWF a.slaves

/-- `Matches s h alts`: the input `s` is a rendering of the grammar of
section 6 with header content `h` and Alternative blocks `alts` — lines may
end in LF or CRLF, the final newline may be missing, blank lines separate
the header from the blocks and the blocks from each other, and trailing
blank lines are allowed. -/
def Matches (s : List Char) (h : GHeader) (alts : List GAlt) : Prop :=
  HeaderWF h ∧ (∀ a ∈ alts, AltWF a) ∧
    ∃ plan : List (List Char × List Char), ∃ balts : List (Nat × GAlt), ∃ t : Nat,
      PlanWF plan ∧
      plan.map Prod.fst = headerLines h ++ blocksLines balts ++ List.replicate t [] ∧
      balts.map Prod.snd = alts ∧
      s = renderPlan plan

instance (nl : List Char) : Decidable (IsNL nl) :=
  inferInstanceAs (Decidable (_ ∨ _))

instance instDecPlanWF : (plan : List (List Char × List Char)) →
    Decidable (PlanWF plan)
  | [] => .isTrue trivial
  | (l, nl) :: rest =>
    have : Decidable (PlanWF rest) := instDecPlanWF rest
    inferInstanceAs (Decidable (_ ∧ _ ∧ _))

instance (t : List Char) : Decidable (GoodTok t) :=
  inferInstanceAs (Decidable (_ ∧ _ ∧ _))

instance (p : SlaveLine) : Decidable (SlWF p) :=
  inferInstanceAs (Decidable (_ ∧ _ ∧ _ ∧ _ ∧ _ ∧ _))

instance : (o : Option (List SlaveLine)) → Decidable (SlavesWF o)
  | none => .isTrue trivial
  | some sl => inferInstanceAs (Decidable (_ ∧ _ ∧ _))

instance (s : List Char) : Decidable (IsIntLit s) :=
  inferInstanceAs (Decidable (_ ∧ _ ∧ _ ∧ _))

instance (h : GHeader) : Decidable (HeaderWF h) :=
  inferInstanceAs (Decidable (_ ∧ _ ∧ _ ∧ _ ∧ _ ∧ _))

instance (a : GAlt) : Decidable (AltWF a) :=
  inferInstanceAs (Decidable (_ ∧ _ ∧ _))

/-! ### CRLF simulation: replacing every LF by CRLF -/

/-- Embeds `strings.ReplaceAll(s, "\n", "\r\n")`. -/
def crlf : List Char → List Char
  | [] => []
  | c :: cs => if c = '\n' then '\r' :: '\n' :: crlf cs else c :: crlf cs

/-! ### The order of Alternative entries -/

/-- Fueled: the values of the "Alternative" keys in the key-value stream, in
input order, stopping at end of stream or at the first error. -/
def altPathsF : Nat → List Char → Nat → List (List Char)
  | 0, _, _ => []
  | fuel + 1, input, lineNo =>
    match readKeyValue input lineNo with
    | .error _ => []
    | .ok none => []
    | .ok (some ((k, v), rest, n)) =>
      if k = chars "Alternative" then v :: altPathsF fuel rest n
      else altPathsF fuel rest n

/-- `altPathsF` with sufficient fuel. -/
def altPaths (input : List Char) (lineNo : Nat) : List (List Char) :=
  altPathsF (input.length + 1) input lineNo

/-! ### Concrete data used by the claim witnesses -/

/-- Concrete header content for a grammatical example input. -/
def exHeader : GHeader :=
  ⟨chars "java", chars "/usr/bin/java",
    some [⟨chars "j.1", chars "/man/j.1"⟩],
    chars "auto", chars "/jvm/java", chars "/jvm/java"⟩

/-- Concrete Alternative-block content for a grammatical example input. -/
def exAlt : GAlt :=
  ⟨chars "/jvm/java", chars "-10", some [⟨chars "j.1", chars "/man/jj.1"⟩]⟩

/-- A rendering plan for the example: every line ends in LF and one blank
line precedes the block. -/
def exPlan : List (List Char × List Char) :=
  (headerLines exHeader ++ blocksLines [(1, exAlt)]).map (fun l => (l, ['\n']))

/-- A concrete input with two Alternative blocks, used to witness the order
of the Alternatives sequence. -/
def exOrderInput : List Char :=
  chars "Alternative: /a\nPriority: 1\nAlternative: /b\nPriority: 2"

/-- The record the order example parses to. -/
def exOrderRec : Alternatives :=
  ⟨[], [], [], [], [], [], [⟨chars "/a", 1, []⟩, ⟨chars "/b", 2, []⟩]⟩

/-! ### Theorems -/

/-! ### Basic lemmas about the character-level primitives -/

theorem readLine_append (i : List Char) :
    (readLine i).1 ++ (readLine i).2.1 = i := by
  induction i with
  | nil => rfl
  | cons c cs ih =>
    simp only [readLine]
    by_cases h : c = '\n'
    · simp [h]
    · simpa [h] using ih

theorem readLine_no_nl {i : List Char} (h : '\n' ∉ i) :
    readLine i = (i, [], true) := by
  induction i with
  | nil => rfl
  | cons c cs ih =>
    have hc : c ≠ '\n' := fun hc => h (hc ▸ List.mem_cons_self c cs)
    have hcs : '\n' ∉ cs := fun hm => h (List.mem_cons_of_mem c hm)
    simp [readLine, hc, ih hcs]

theorem readLine_find {l r : List Char} (h : '\n' ∉ l) :
    readLine (l ++ '\n' :: r) = (l ++ ['\n'], r, false) := by
  induction l with
  | nil => simp [readLine]
  | cons c cs ih =>
    have hc : c ≠ '\n' := fun hc => h (hc ▸ List.mem_cons_self c cs)
    have hcs : '\n' ∉ cs := fun hm => h (List.mem_cons_of_mem c hm)
    simp [readLine, hc, ih hcs]

theorem readLine_not_eof_lt {i : List Char}
    (h : (readLine i).2.2 = false) : (readLine i).2.1.length < i.length := by
  induction i with
  | nil => simp [readLine] at h
  | cons c cs ih =>
    by_cases hc : c = '\n'
    · simp [readLine, hc]
    · simp only [readLine, if_neg hc] at h ⊢
      exact Nat.lt_succ_of_lt (ih h)

theorem readLine_eof_rest {i : List Char}
    (h : (readLine i).2.2 = true) : (readLine i).2.1 = [] := by
  induction i with
  | nil => rfl
  | cons c cs ih =>
    by_cases hc : c = '\n'
    · simp [readLine, hc] at h
    · simp only [readLine, if_neg hc] at h ⊢
      exact ih h

theorem trimRightRN_nil : trimRightRN [] = [] := rfl

theorem trimRightRN_append_nl (l : List Char) :
    trimRightRN (l ++ ['\n']) = trimRightRN l := by
  simp [trimRightRN, List.dropWhile]

theorem trimRightRN_append_cr (l : List Char) :
    trimRightRN (l ++ ['\r']) = trimRightRN l := by
  simp [trimRightRN, List.dropWhile]

theorem dropWhile_eq_self_of_false {p : Char → Bool} {xs : List Char}
    (h : ∀ c ∈ xs, p c = false) : xs.dropWhile p = xs := by
  cases xs with
  | nil => rfl
  | cons c cs =>
    rw [List.dropWhile_cons_of_neg (by simp [h c (List.mem_cons_self c cs)])]

theorem trimRightRN_eq_self {l : List Char} (hr : '\r' ∉ l) (hn : '\n' ∉ l) :
    trimRightRN l = l := by
  unfold trimRightRN
  rw [dropWhile_eq_self_of_false, List.reverse_reverse]
  intro c hcm
  rw [List.mem_reverse] at hcm
  have h1 : c ≠ '\r' := fun he => hr (he ▸ hcm)
  have h2 : c ≠ '\n' := fun he => hn (he ▸ hcm)
  simp [h1, h2]

theorem trimRightRN_append_mid {b : List Char} (a : List Char) {c : Char}
    (hr : c ≠ '\r') (hn : c ≠ '\n') :
    trimRightRN (a ++ c :: b) = a ++ c :: trimRightRN b := by
  have hc : (c == '\r' || c == '\n') = false := by simp [hr, hn]
  unfold trimRightRN
  rw [List.reverse_append, List.reverse_cons, List.append_assoc,
    List.dropWhile_append]
  by_cases h : (b.reverse.dropWhile (fun c => c == '\r' || c == '\n')).isEmpty
  · rw [if_pos h, List.singleton_append,
      List.dropWhile_cons_of_neg (by simp [hc]), List.isEmpty_iff.1 h]
    simp
  · rw [if_neg h]
    simp

theorem mem_trimRightRN {l : List Char} {c : Char} (h : c ∈ trimRightRN l) :
    c ∈ l := by
  unfold trimRightRN at h
  rw [List.mem_reverse] at h
  have := List.dropWhile_sublist (l := l.reverse) (p := fun c => c == '\r' || c == '\n')
  exact List.mem_reverse.1 (this.mem h)

theorem trimRightRN_ne_nil {l : List Char} {c : Char} (hm : c ∈ l)
    (hr : c ≠ '\r') (hn : c ≠ '\n') : trimRightRN l ≠ [] := by
  intro h
  rcases List.append_of_mem hm with ⟨a, b, rfl⟩
  rw [trimRightRN_append_mid a hr hn] at h
  simp at h

theorem trimLeftSp_eq_self {l : List Char} (h : l.head? ≠ some ' ') :
    trimLeftSp l = l := by
  cases l with
  | nil => rfl
  | cons c cs =>
    have : c ≠ ' ' := fun hc => h (by simp [hc])
    simp [trimLeftSp, List.dropWhile_cons, this]

theorem splitFirst_not_mem {l : List Char} {sep : Char} (h : sep ∉ l) :
    splitFirst sep l = none := by
  induction l with
  | nil => rfl
  | cons c cs ih =>
    have hc : c ≠ sep := fun hc => h (hc ▸ List.mem_cons_self c cs)
    have hcs : sep ∉ cs := fun hm => h (List.mem_cons_of_mem c hm)
    simp [splitFirst, hc, ih hcs]

theorem splitFirst_find {k : List Char} (v : List Char) {sep : Char}
    (h : sep ∉ k) : splitFirst sep (k ++ sep :: v) = some (k, v) := by
  induction k with
  | nil => simp [splitFirst]
  | cons c cs ih =>
    have hc : c ≠ sep := fun hc => h (hc ▸ List.mem_cons_self c cs)
    have hcs : sep ∉ cs := fun hm => h (List.mem_cons_of_mem c hm)
    simp [splitFirst, hc, ih hcs]

/-! ### Fuel congruence and step equations for `seekLine` -/

theorem seekLineF_congr : ∀ f1 f2 : Nat, ∀ input : List Char, ∀ n : Nat,
    input.length < f1 → input.length < f2 →
    seekLineF f1 input n = seekLineF f2 input n := by
  intro f1
  induction f1 with
  | zero => intro f2 input n h1; omega
  | succ g ih =>
    intro f2 input n h1 h2
    cases f2 with
    | zero => omega
    | succ g2 =>
      simp only [seekLineF]
      by_cases he : (readLine input).2.2
      · simp [he]
      · have hlt := readLine_not_eof_lt (by simpa using he)
        simp only [Bool.not_eq_true] at he
        simp only [he]
        by_cases hb : trimRightRN (readLine input).1 = []
        · simp only [if_pos hb]
          exact ih g2 (readLine input).2.1 (n + 1) (by omega) (by omega)
        · simp [hb]

theorem seekLine_nil (n : Nat) : seekLine [] n = none := rfl

theorem seekLine_eof {input : List Char} (n : Nat) (h : '\n' ∉ input)
    (hb : trimRightRN input = []) : seekLine input n = none := by
  unfold seekLine seekLineF
  rw [readLine_no_nl h]
  simp [hb]

theorem seekLine_last {input : List Char} (n : Nat) (h : '\n' ∉ input)
    (hb : trimRightRN input ≠ []) :
    seekLine input n = some (trimRightRN input, [], n + 1) := by
  unfold seekLine seekLineF
  rw [readLine_no_nl h]
  simp [hb]

theorem seekLine_step_blank {l : List Char} (r : List Char) (n : Nat)
    (h : '\n' ∉ l) (hb : trimRightRN l = []) :
    seekLine (l ++ '\n' :: r) n = seekLine r (n + 1) := by
  unfold seekLine
  rw [show (l ++ '\n' :: r).length + 1 = (l.length + (1 + r.length)) + 1 from by
    simp; omega]
  simp only [seekLineF, readLine_find h, trimRightRN_append_nl, hb, if_pos rfl]
  simp only [Bool.false_eq_true, if_false]
  exact seekLineF_congr (l.length + (1 + r.length)) (r.length + 1) r (n + 1)
    (by omega) (by omega)

theorem seekLine_step_line {l : List Char} (r : List Char) (n : Nat)
    (h : '\n' ∉ l) (hb : trimRightRN l ≠ []) :
    seekLine (l ++ '\n' :: r) n = some (trimRightRN l, r, n + 1) := by
  unfold seekLine
  cases hfe : (l ++ '\n' :: r).length + 1 with
  | zero => simp at hfe
  | succ g =>
    simp only [seekLineF, readLine_find h, trimRightRN_append_nl]
    simp [hb]

theorem seekLine_rest_lt : ∀ {input l rest : List Char} {n n' : Nat},
    seekLine input n = some (l, rest, n') → rest.length < input.length := by
  have key : ∀ f : Nat, ∀ {input l rest : List Char} {n n' : Nat},
      seekLineF f input n = some (l, rest, n') → rest.length < input.length := by
    intro f
    induction f with
    | zero => intro input l rest n n' h; simp [seekLineF] at h
    | succ g ih =>
      intro input l rest n n' h
      simp only [seekLineF] at h
      by_cases he : (readLine input).2.2
      · rw [if_pos he] at h
        by_cases hb : trimRightRN (readLine input).1 = []
        · simp [hb] at h
        · rw [if_neg hb] at h
          simp only [Option.some.injEq, Prod.mk.injEq] at h
          obtain ⟨-, h2, -⟩ := h
          have hrest := readLine_eof_rest he
          have happ := readLine_append input
          have hraw : (readLine input).1 ≠ [] := by
            intro hr
            rw [hr] at hb
            exact hb rfl
          have hpos : 0 < input.length := by
            rw [← happ, List.length_append]
            cases hrl : (readLine input).1 with
            | nil => exact absurd hrl hraw
            | cons a b => simp
          rw [← h2, hrest]
          simpa using hpos
      · simp only [Bool.not_eq_true] at he
        rw [he] at h
        simp only [Bool.false_eq_true, if_false] at h
        have hlt := readLine_not_eof_lt he
        by_cases hb : trimRightRN (readLine input).1 = []
        · rw [if_pos hb] at h
          exact lt_trans (ih h) hlt
        · rw [if_neg hb] at h
          cases h
          exact hlt
  intro input l rest n n' h
  exact key _ h

theorem contLine_append_nl (l : List Char) :
    contLine (l ++ ['\n']) = contLine l := by
  unfold contLine trimLeftSp
  rw [List.dropWhile_append]
  by_cases h : (l.dropWhile (fun c => c == ' ')).isEmpty
  · rw [if_pos h, List.isEmpty_iff.1 h]
    simp [List.dropWhile, trimRightRN]
  · rw [if_neg h, trimRightRN_append_nl]

theorem contLine_append_cr (l : List Char) :
    contLine (l ++ ['\r']) = contLine l := by
  unfold contLine trimLeftSp
  rw [List.dropWhile_append]
  by_cases h : (l.dropWhile (fun c => c == ' ')).isEmpty
  · rw [if_pos h, List.isEmpty_iff.1 h]
    simp [List.dropWhile, trimRightRN]
  · rw [if_neg h, trimRightRN_append_cr]

theorem readLine_rest_le (i : List Char) :
    (readLine i).2.1.length ≤ i.length := by
  conv_rhs => rw [← readLine_append i]
  rw [List.length_append]
  omega

theorem readContF_congr : ∀ f1 f2 : Nat, ∀ input v : List Char, ∀ n : Nat,
    input.length < f1 → input.length < f2 →
    readContF f1 input v n = readContF f2 input v n := by
  intro f1
  induction f1 with
  | zero => intro f2 input v n h1; omega
  | succ g ih =>
    intro f2 input v n h1 h2
    cases f2 with
    | zero => omega
    | succ g2 =>
      simp only [readContF]
      cases input with
      | nil => rfl
      | cons c cs =>
        by_cases hc : c ≠ ' '
        · simp [hc]
        · simp only [if_neg hc]
          by_cases hbr : (readLine (c :: cs)).2.2 ∧
              trimRightRN (trimLeftSp (readLine (c :: cs)).1) = []
          · simp [hbr]
          · simp only [if_neg hbr]
            by_cases he : (readLine (c :: cs)).2.2
            · have hre := readLine_eof_rest he
              rw [hre]
              have h1' : cs.length + 1 < g + 1 := by simpa using h1
              have h2' : cs.length + 1 < g2 + 1 := by simpa using h2
              exact ih g2 [] _ (n + 1) (by simp; omega) (by simp; omega)
            · have hlt := readLine_not_eof_lt (by simpa using he)
              have h1' : cs.length + 1 < g + 1 := by simpa using h1
              have h2' : cs.length + 1 < g2 + 1 := by simpa using h2
              have hlt' : (readLine (c :: cs)).2.1.length < cs.length + 1 := by
                simpa using hlt
              exact ih g2 (readLine (c :: cs)).2.1 _ (n + 1) (by omega) (by omega)

theorem readCont_stop {input : List Char} (v : List Char) (n : Nat)
    (h : input.head? ≠ some ' ') : readCont input v n = (v, input, n) := by
  unfold readCont
  cases input with
  | nil => rfl
  | cons c cs =>
    have hc : c ≠ ' ' := fun hc => h (by simp [hc])
    simp [readContF, hc]

theorem readContF_succ_space (f : Nat) (c : Char) (cs v : List Char) (n : Nat)
    (hc : c = ' ')
    (hguard : ¬((readLine (c :: cs)).2.2 = true ∧
      trimRightRN (trimLeftSp (readLine (c :: cs)).1) = [])) :
    readContF (f + 1) (c :: cs) v n =
      readContF f (readLine (c :: cs)).2.1
        (contAppend v (trimRightRN (trimLeftSp (readLine (c :: cs)).1)))
        (n + 1) := by
  simp only [readContF, if_neg (by simp [hc] : ¬c ≠ ' '), if_neg hguard]

theorem readCont_step {l : List Char} (r v : List Char) (n : Nat)
    (hh : l.head? = some ' ') (hn : '\n' ∉ l) :
    readCont (l ++ '\n' :: r) v n =
      readCont r (contAppend v (contLine l)) (n + 1) := by
  cases l with
  | nil => simp at hh
  | cons c cs =>
    have hc : c = ' ' := by simpa using hh
    have hfind : readLine ((c :: cs) ++ '\n' :: r) = ((c :: cs) ++ ['\n'], r, false) :=
      readLine_find hn
    have hfind' : readLine (c :: (cs ++ '\n' :: r)) = (c :: (cs ++ ['\n']), r, false) := by
      simpa using hfind
    unfold readCont
    rw [show ((c :: cs) ++ '\n' :: r).length + 1 =
      ((c :: cs).length + (1 + r.length)) + 1 from by simp; omega]
    simp only [List.cons_append]
    rw [readContF_succ_space ((c :: cs).length + (1 + r.length)) c (cs ++ '\n' :: r)
      v n hc (by rw [hfind']; simp)]
    rw [hfind']
    rw [show trimRightRN (trimLeftSp (c :: (cs ++ ['\n']))) = contLine (c :: cs) from
      contLine_append_nl (c :: cs)]
    exact readContF_congr ((c :: cs).length + (1 + r.length)) (r.length + 1) r
      (contAppend v (contLine (c :: cs))) (n + 1) (by simp; omega) (by omega)

theorem readCont_eof_append {l : List Char} (v : List Char) (n : Nat)
    (hh : l.head? = some ' ') (hn : '\n' ∉ l) (hcl : contLine l ≠ []) :
    readCont l v n = (contAppend v (contLine l), [], n + 1) := by
  cases l with
  | nil => simp at hh
  | cons c cs =>
    have hc : c = ' ' := by simpa using hh
    have hfind : readLine (c :: cs) = (c :: cs, [], true) := readLine_no_nl hn
    unfold readCont
    rw [readContF_succ_space (c :: cs).length c cs v n hc
      (by rw [hfind]; simpa [contLine] using hcl)]
    rw [hfind]
    show readContF (c :: cs).length []
      (contAppend v (trimRightRN (trimLeftSp (c :: cs)))) (n + 1) = _
    cases hl : (c :: cs).length with
    | zero => simp at hl
    | succ m => simp [readContF, contLine]

theorem readCont_eof_break {l : List Char} (v : List Char) (n : Nat)
    (hh : l.head? = some ' ') (hn : '\n' ∉ l) (hcl : contLine l = []) :
    readCont l v n = (v, [], n) := by
  cases l with
  | nil => simp at hh
  | cons c cs =>
    have hc : c = ' ' := by simpa using hh
    have hfind : readLine (c :: cs) = (c :: cs, [], true) := readLine_no_nl hn
    unfold readCont
    show readContF ((c :: cs).length + 1) (c :: cs) v n = _
    simp only [readContF, if_neg (by simp [hc] : ¬c ≠ ' '), hfind]
    have : trimRightRN (trimLeftSp (c :: cs)) = [] := hcl
    simp [this]

theorem readContF_succ_nil (f : Nat) (v : List Char) (n : Nat) :
    readContF (f + 1) [] v n = (v, [], n) := rfl

theorem readContF_succ_stop (f : Nat) {c : Char} (cs v : List Char) (n : Nat)
    (hc : c ≠ ' ') : readContF (f + 1) (c :: cs) v n = (v, c :: cs, n) := by
  simp only [readContF, if_pos hc]

theorem readContF_succ_break (f : Nat) {c : Char} (cs v : List Char) (n : Nat)
    (hc : c = ' ')
    (hg : (readLine (c :: cs)).2.2 = true ∧
      trimRightRN (trimLeftSp (readLine (c :: cs)).1) = []) :
    readContF (f + 1) (c :: cs) v n = (v, (readLine (c :: cs)).2.1, n) := by
  simp only [readContF, if_neg (by simp [hc] : ¬c ≠ ' '), if_pos hg]

theorem readContF_rest_le : ∀ f : Nat, ∀ {input v v' rest : List Char} {n n' : Nat},
    readContF f input v n = (v', rest, n') → rest.length ≤ input.length := by
  intro f
  induction f with
  | zero =>
    intro input v v' rest n n' h
    simp only [readContF] at h
    cases h
    exact le_refl _
  | succ g ih =>
    intro input v v' rest n n' h
    cases input with
    | nil =>
      rw [readContF_succ_nil] at h
      cases h
      simp
    | cons c cs =>
      by_cases hc : c ≠ ' '
      · rw [readContF_succ_stop g cs v n hc] at h
        cases h
        exact le_refl _
      · have hc' : c = ' ' := by simpa using hc
        by_cases hg : (readLine (c :: cs)).2.2 = true ∧
            trimRightRN (trimLeftSp (readLine (c :: cs)).1) = []
        · rw [readContF_succ_break g cs v n hc' hg] at h
          cases h
          exact readLine_rest_le _
        · rw [readContF_succ_space g c cs v n hc' hg] at h
          exact le_trans (ih h) (readLine_rest_le _)

theorem readCont_rest_le {input v v' rest : List Char} {n n' : Nat}
    (h : readCont input v n = (v', rest, n')) : rest.length ≤ input.length :=
  readContF_rest_le _ h

theorem readCont_rest_le2 (input v : List Char) (n : Nat) :
    (readCont input v n).2.1.length ≤ input.length :=
  readCont_rest_le (show readCont input v n =
    ((readCont input v n).1, (readCont input v n).2.1,
      (readCont input v n).2.2) from rfl)

/-! ### Equations for `readKeyValue` and `parseLoop` -/

theorem readKeyValue_congr {i1 i2 : List Char} {n1 n2 : Nat}
    (h : seekLine i1 n1 = seekLine i2 n2) :
    readKeyValue i1 n1 = readKeyValue i2 n2 := by
  unfold readKeyValue
  rw [h]

theorem readKeyValue_none {input : List Char} {n : Nat}
    (h : seekLine input n = none) : readKeyValue input n = .ok none := by
  unfold readKeyValue
  rw [h]

theorem readKeyValue_nil (n : Nat) : readKeyValue [] n = .ok none := rfl

theorem readKeyValue_split_none {input line rest1 : List Char} {n m : Nat}
    (hs : seekLine input n = some (line, rest1, m))
    (hsp : splitFirst ':' line = none) :
    readKeyValue input n = .error ⟨chars "malformed line", m⟩ := by
  unfold readKeyValue
  rw [hs]
  show (match splitFirst ':' line with
    | none => (.error ⟨chars "malformed line", m⟩ :
        Except ParseError (Option ((List Char × List Char) × List Char × Nat)))
    | some (k, v0) =>
      let v1 := trimRightRN (trimLeftSp v0)
      let r := readCont rest1 v1 m
      .ok (some ((k, r.1), r.2.1, r.2.2))) = _
  rw [hsp]

theorem readKeyValue_split_some {input line rest1 k v0 : List Char} {n m : Nat}
    (hs : seekLine input n = some (line, rest1, m))
    (hsp : splitFirst ':' line = some (k, v0)) :
    readKeyValue input n =
      .ok (some ((k, (readCont rest1 (trimRightRN (trimLeftSp v0)) m).1),
        (readCont rest1 (trimRightRN (trimLeftSp v0)) m).2.1,
        (readCont rest1 (trimRightRN (trimLeftSp v0)) m).2.2)) := by
  unfold readKeyValue
  rw [hs]
  show (match splitFirst ':' line with
    | none => (.error ⟨chars "malformed line", m⟩ :
        Except ParseError (Option ((List Char × List Char) × List Char × Nat)))
    | some (k, v0) =>
      let v1 := trimRightRN (trimLeftSp v0)
      let r := readCont rest1 v1 m
      .ok (some ((k, r.1), r.2.1, r.2.2))) = _
  rw [hsp]

theorem readKeyValue_rest_lt {input rest : List Char}
    {p : List Char × List Char} {n n' : Nat}
    (h : readKeyValue input n = .ok (some (p, rest, n'))) :
    rest.length < input.length := by
  cases hs : seekLine input n with
  | none =>
    rw [readKeyValue_none hs] at h
    exact absurd h (by simp)
  | some x =>
    obtain ⟨line, rest1, m⟩ := x
    have hlt := seekLine_rest_lt hs
    cases hsp : splitFirst ':' line with
    | none =>
      rw [readKeyValue_split_none hs hsp] at h
      exact absurd h (by simp)
    | some kv =>
      obtain ⟨k, v0⟩ := kv
      rw [readKeyValue_split_some hs hsp] at h
      simp only [Except.ok.injEq, Option.some.injEq, Prod.mk.injEq] at h
      obtain ⟨-, h2, -⟩ := h
      have hle := readCont_rest_le2 rest1 (trimRightRN (trimLeftSp v0)) m
      rw [h2] at hle
      omega

theorem parseLoopF_succ_error {input : List Char} {n : Nat} {e : ParseError}
    (f : Nat) (res : Alternatives) (cur : Option Alternative)
    (h : readKeyValue input n = .error e) :
    parseLoopF (f + 1) input n res cur = .error e := by
  simp only [parseLoopF, h]

theorem parseLoopF_succ_none {input : List Char} {n : Nat}
    (f : Nat) (res : Alternatives) (cur : Option Alternative)
    (h : readKeyValue input n = .ok none) :
    parseLoopF (f + 1) input n res cur = .ok (finalize res cur) := by
  simp only [parseLoopF, h]

theorem parseLoopF_succ_some {input rest k v : List Char} {n m : Nat}
    (f : Nat) (res : Alternatives) (cur : Option Alternative)
    (h : readKeyValue input n = .ok (some ((k, v), rest, m))) :
    parseLoopF (f + 1) input n res cur =
      match parseStep k v m res cur with
      | .error e => .error e
      | .ok (res', cur') => parseLoopF f rest m res' cur' := by
  simp only [parseLoopF, h]

theorem parseLoopF_congr : ∀ f1 f2 : Nat, ∀ input : List Char, ∀ n : Nat,
    ∀ res : Alternatives, ∀ cur : Option Alternative,
    input.length < f1 → input.length < f2 →
    parseLoopF f1 input n res cur = parseLoopF f2 input n res cur := by
  intro f1
  induction f1 with
  | zero => intro f2 input n res cur h1; omega
  | succ g ih =>
    intro f2 input n res cur h1 h2
    cases f2 with
    | zero => omega
    | succ g2 =>
      cases hk : readKeyValue input n with
      | error e =>
        rw [parseLoopF_succ_error g res cur hk, parseLoopF_succ_error g2 res cur hk]
      | ok o =>
        cases o with
        | none =>
          rw [parseLoopF_succ_none g res cur hk, parseLoopF_succ_none g2 res cur hk]
        | some x =>
          obtain ⟨⟨k, v⟩, rest, m⟩ := x
          have hlt := readKeyValue_rest_lt hk
          rw [parseLoopF_succ_some g res cur hk, parseLoopF_succ_some g2 res cur hk]
          cases hp : parseStep k v m res cur with
          | error e => rfl
          | ok y =>
            obtain ⟨res', cur'⟩ := y
            exact ih g2 rest m res' cur' (by omega) (by omega)

theorem parseLoop_error {input : List Char} {n : Nat} {e : ParseError}
    (res : Alternatives) (cur : Option Alternative)
    (h : readKeyValue input n = .error e) :
    parseLoop input n res cur = .error e := by
  unfold parseLoop
  simp only [parseLoopF, h]

theorem parseLoop_eof {input : List Char} {n : Nat}
    (res : Alternatives) (cur : Option Alternative)
    (h : readKeyValue input n = .ok none) :
    parseLoop input n res cur = .ok (finalize res cur) := by
  unfold parseLoop
  simp only [parseLoopF, h]

theorem parseLoop_step_error {input rest : List Char} {k v : List Char}
    {n m : Nat} {e : ParseError} (res : Alternatives) (cur : Option Alternative)
    (hk : readKeyValue input n = .ok (some ((k, v), rest, m)))
    (hp : parseStep k v m res cur = .error e) :
    parseLoop input n res cur = .error e := by
  unfold parseLoop
  simp only [parseLoopF, hk, hp]

theorem parseLoop_step {input rest : List Char} {k v : List Char}
    {n m : Nat} {res' : Alternatives} {cur' : Option Alternative}
    (res : Alternatives) (cur : Option Alternative)
    (hk : readKeyValue input n = .ok (some ((k, v), rest, m)))
    (hp : parseStep k v m res cur = .ok (res', cur')) :
    parseLoop input n res cur = parseLoop rest m res' cur' := by
  unfold parseLoop
  simp only [parseLoopF, hk, hp]
  exact parseLoopF_congr input.length (rest.length + 1) rest m res' cur'
    (readKeyValue_rest_lt hk) (by omega)

theorem PlanWF_append_right {xs ys : List (List Char × List Char)}
    (h : PlanWF (xs ++ ys)) : PlanWF ys := by
  induction xs with
  | nil => exact h
  | cons x xs ih =>
    obtain ⟨l, nl⟩ := x
    exact ih h.2.2

theorem renderPlan_head {plan : List (List Char × List Char)}
    (hwf : PlanWF plan) (hns : NotSpaceHead plan) :
    (renderPlan plan).head? ≠ some ' ' := by
  cases plan with
  | nil => simp [renderPlan]
  | cons x rest =>
    obtain ⟨l, nl⟩ := x
    cases l with
    | nil =>
      rcases hwf.2.1 with hnl | ⟨hnl, hrest⟩
      · rcases hnl with h | h <;> simp [renderPlan, h]
      · subst hnl hrest
        simp [renderPlan]
    | cons c cs =>
      have hc : c ≠ ' ' := fun hc => hns (by simp [NotSpaceHead, hc])
      simp [renderPlan, hc]

theorem not_nl_append_cr {l : List Char} (hn : '\n' ∉ l) : '\n' ∉ l ++ ['\r'] := by
  intro hm
  rcases List.mem_append.1 hm with h | h
  · exact hn h
  · simp at h

theorem seekLine_plan_blank {l nl : List Char}
    {rest : List (List Char × List Char)} (n : Nat)
    (hwf : PlanWF ((l, nl) :: rest)) (hb : trimRightRN l = []) :
    seekLine (renderPlan ((l, nl) :: rest)) n = seekLine (renderPlan rest) (n + 1) := by
  obtain ⟨hn, hnl, -⟩ := hwf
  rcases hnl with hnl | ⟨hnl, hrest⟩
  · rcases hnl with h | h
    · subst h
      show seekLine (l ++ '\n' :: renderPlan rest) n = _
      exact seekLine_step_blank _ n hn hb
    · subst h
      show seekLine (l ++ '\r' :: '\n' :: renderPlan rest) n = _
      rw [show l ++ '\r' :: '\n' :: renderPlan rest =
        (l ++ ['\r']) ++ '\n' :: renderPlan rest from by simp]
      exact seekLine_step_blank _ n (not_nl_append_cr hn)
        (by rw [trimRightRN_append_cr]; exact hb)
  · subst hnl hrest
    show seekLine (l ++ ([] ++ renderPlan [])) n = seekLine (renderPlan []) (n + 1)
    simp only [List.nil_append, List.append_nil, renderPlan]
    rw [seekLine_eof n hn hb]
    rfl

theorem seekLine_plan_line {l nl : List Char}
    {rest : List (List Char × List Char)} (n : Nat)
    (hwf : PlanWF ((l, nl) :: rest)) (hb : trimRightRN l ≠ []) :
    seekLine (renderPlan ((l, nl) :: rest)) n =
      some (trimRightRN l, renderPlan rest, n + 1) := by
  obtain ⟨hn, hnl, -⟩ := hwf
  rcases hnl with hnl | ⟨hnl, hrest⟩
  · rcases hnl with h | h
    · subst h
      show seekLine (l ++ '\n' :: renderPlan rest) n = _
      exact seekLine_step_line _ n hn hb
    · subst h
      show seekLine (l ++ '\r' :: '\n' :: renderPlan rest) n = _
      rw [show l ++ '\r' :: '\n' :: renderPlan rest =
        (l ++ ['\r']) ++ '\n' :: renderPlan rest from by simp]
      rw [seekLine_step_line _ n (not_nl_append_cr hn)
        (by rw [trimRightRN_append_cr]; exact hb)]
      rw [trimRightRN_append_cr]
  · subst hnl hrest
    show seekLine (l ++ ([] ++ renderPlan [])) n = _
    simp only [List.nil_append, renderPlan, List.append_nil]
    exact seekLine_last n hn hb

theorem seekLine_plan_blanks : ∀ bplan plan : List (List Char × List Char),
    ∀ n : Nat, PlanWF (bplan ++ plan) → (∀ p ∈ bplan, trimRightRN p.1 = []) →
    seekLine (renderPlan (bplan ++ plan)) n =
      seekLine (renderPlan plan) (n + bplan.length) := by
  intro bplan
  induction bplan with
  | nil => intro plan n hwf hb; simp
  | cons x bp ih =>
    intro plan n hwf hb
    obtain ⟨l, nl⟩ := x
    have hwf' : PlanWF ((l, nl) :: (bp ++ plan)) := hwf
    show seekLine (renderPlan ((l, nl) :: (bp ++ plan))) n = _
    rw [seekLine_plan_blank n hwf' (hb (l, nl) (List.mem_cons_self _ _))]
    rw [ih plan (n + 1) hwf'.2.2 (fun p hp => hb p (List.mem_cons_of_mem _ hp))]
    congr 1
    simp
    omega

theorem readCont_plan : ∀ slplan plan : List (List Char × List Char),
    ∀ v : List Char, ∀ n : Nat,
    PlanWF (slplan ++ plan) →
    (∀ p ∈ slplan, p.1.head? = some ' ' ∧ contLine p.1 ≠ []) →
    NotSpaceHead plan →
    readCont (renderPlan (slplan ++ plan)) v n =
      (contValue v (slplan.map (fun p => contLine p.1)), renderPlan plan,
        n + slplan.length) := by
  intro slplan
  induction slplan with
  | nil =>
    intro plan v n hwf hsl hns
    have hwfp : PlanWF plan := hwf
    show readCont (renderPlan plan) v n = _
    rw [readCont_stop v n (renderPlan_head hwfp hns)]
    simp [contValue]
  | cons x sl ih =>
    intro plan v n hwf hsl hns
    obtain ⟨l, nl⟩ := x
    obtain ⟨hh, hcl⟩ := hsl (l, nl) (List.mem_cons_self _ _)
    have hsl' : ∀ p ∈ sl, p.1.head? = some ' ' ∧ contLine p.1 ≠ [] :=
      fun p hp => hsl p (List.mem_cons_of_mem _ hp)
    have hwfc : PlanWF ((l, nl) :: (sl ++ plan)) := hwf
    obtain ⟨hn, hnl, hwf'⟩ := hwfc
    have hstep : ∀ r : List Char,
        readCont (l ++ '\n' :: r) v n = readCont r (contAppend v (contLine l)) (n + 1) :=
      fun r => readCont_step r v n hh hn
    rcases hnl with hnl | ⟨hnl, hrest⟩
    · rcases hnl with h | h
      · subst h
        show readCont (l ++ '\n' :: renderPlan (sl ++ plan)) v n = _
        rw [hstep (renderPlan (sl ++ plan))]
        rw [ih plan (contAppend v (contLine l)) (n + 1) hwf' hsl' hns]
        simp [contValue]
        omega
      · subst h
        show readCont (l ++ '\r' :: '\n' :: renderPlan (sl ++ plan)) v n = _
        rw [show l ++ '\r' :: '\n' :: renderPlan (sl ++ plan) =
          (l ++ ['\r']) ++ '\n' :: renderPlan (sl ++ plan) from by simp]
        have hh' : (l ++ ['\r']).head? = some ' ' := by
          cases l with
          | nil => simp at hh
          | cons c cs => simpa using hh
        have hn' : '\n' ∉ l ++ ['\r'] := not_nl_append_cr hn
        rw [readCont_step (renderPlan (sl ++ plan)) v n hh' hn']
        rw [contLine_append_cr]
        rw [ih plan (contAppend v (contLine l)) (n + 1) hwf' hsl' hns]
        simp [contValue]
        omega
    · subst hnl
      have hsl0 : sl = [] := by
        cases sl with
        | nil => rfl
        | cons a b => simp at hrest
      have hplan0 : plan = [] := by
        cases plan with
        | nil => rfl
        | cons a b => simp [hsl0] at hrest
      subst hsl0 hplan0
      show readCont (l ++ ([] ++ renderPlan [])) v n = _
      simp only [List.nil_append, renderPlan, List.append_nil]
      rw [readCont_eof_append v n hh hn hcl]
      simp [contValue]

theorem readKeyValue_plan {k : List Char} (v0 nl : List Char)
    (slplan plan : List (List Char × List Char)) (n : Nat)
    (hwf : PlanWF ((k ++ ':' :: v0, nl) :: (slplan ++ plan)))
    (hk : ':' ∉ k)
    (hsl : ∀ p ∈ slplan, p.1.head? = some ' ' ∧ contLine p.1 ≠ [])
    (hns : NotSpaceHead plan) :
    readKeyValue (renderPlan ((k ++ ':' :: v0, nl) :: (slplan ++ plan))) n =
      .ok (some ((k,
        contValue (trimRightRN (trimLeftSp (trimRightRN v0)))
          (slplan.map (fun p => contLine p.1))),
        renderPlan plan, n + 1 + slplan.length)) := by
  have hline : trimRightRN (k ++ ':' :: v0) = k ++ ':' :: trimRightRN v0 :=
    trimRightRN_append_mid k (by decide) (by decide)
  have hne : trimRightRN (k ++ ':' :: v0) ≠ [] := by
    rw [hline]
    simp
  have hs := seekLine_plan_line n hwf hne
  rw [hline] at hs
  have hsp : splitFirst ':' (k ++ ':' :: trimRightRN v0) =
      some (k, trimRightRN v0) := splitFirst_find _ hk
  rw [readKeyValue_split_some hs hsp]
  rw [readCont_plan slplan plan (trimRightRN (trimLeftSp (trimRightRN v0)))
    (n + 1) hwf.2.2 hsl hns]

theorem joinNL_cons_cons (a l : List Char) (ls : List (List Char)) :
    joinNL (a :: l :: ls) = a ++ '\n' :: joinNL (l :: ls) := rfl

theorem contValue_ne : ∀ ls : List (List Char), ∀ v : List Char, v ≠ [] →
    contValue v ls = joinNL (v :: ls) := by
  intro ls
  induction ls with
  | nil => intro v hv; rfl
  | cons l ls ih =>
    intro v hv
    have hv' : 0 < v.length := by cases v with
      | nil => exact absurd rfl hv
      | cons a b => simp
    show contValue (contAppend v l) ls = _
    rw [show contAppend v l = v ++ '\n' :: l from by simp [contAppend, hv']]
    rw [ih (v ++ '\n' :: l) (by simp)]
    cases ls with
    | nil => rfl
    | cons m ms =>
      rw [joinNL_cons_cons, joinNL_cons_cons, joinNL_cons_cons]
      simp

theorem contValue_nil_cons (l : List Char) (ls : List (List Char)) :
    contValue [] (l :: ls) = contValue l ls := by
  show contValue (contAppend [] l) ls = _
  rw [show contAppend [] l = l from by simp [contAppend]]

theorem splitOnNL_no_nl {l : List Char} (h : '\n' ∉ l) : splitOnNL l = [l] := by
  induction l with
  | nil => rfl
  | cons c cs ih =>
    have hc : c ≠ '\n' := fun hc => h (hc ▸ List.mem_cons_self c cs)
    have hcs : '\n' ∉ cs := fun hm => h (List.mem_cons_of_mem c hm)
    simp [splitOnNL, hc, ih hcs]

theorem splitOnNL_append {l : List Char} (r : List Char) (h : '\n' ∉ l) :
    splitOnNL (l ++ '\n' :: r) = l :: splitOnNL r := by
  induction l with
  | nil => simp [splitOnNL]
  | cons c cs ih =>
    have hc : c ≠ '\n' := fun hc => h (hc ▸ List.mem_cons_self c cs)
    have hcs : '\n' ∉ cs := fun hm => h (List.mem_cons_of_mem c hm)
    simp [splitOnNL, hc, ih hcs]

theorem splitOnNL_joinNL : ∀ ls : List (List Char), ls ≠ [] →
    (∀ l ∈ ls, '\n' ∉ l) → splitOnNL (joinNL ls) = ls := by
  intro ls
  induction ls with
  | nil => intro h; exact absurd rfl h
  | cons l ls ih =>
    intro hne hnl
    cases ls with
    | nil => exact splitOnNL_no_nl (hnl l (List.mem_cons_self _ _))
    | cons m ms =>
      rw [joinNL_cons_cons, splitOnNL_append _ (hnl l (List.mem_cons_self _ _)),
        ih (by simp) (fun x hx => hnl x (List.mem_cons_of_mem _ hx))]

theorem mapSet_append {m : List (List Char × List Char)} {k : List Char}
    (v : List Char) (h : ∀ q ∈ m, q.1 ≠ k) : mapSet m k v = m ++ [(k, v)] := by
  unfold mapSet
  rw [if_neg]
  simp only [List.any_eq_true, not_exists, not_and]
  intro q hq
  simp [h q hq]

theorem atoi_intLit {s : List Char} (h : IsIntLit s) :
    atoi s = some (intLitVal s) := by
  obtain ⟨h1, h2, h3, h4⟩ := h
  unfold atoi
  rw [show (if s.head? = some '+' ∨ s.head? = some '-' then s.tail else s) =
    intLitDigits s from rfl]
  rw [if_neg h1]
  rw [if_pos]
  · rw [if_pos]
    · show some ((if s.head? = some '-' then (-1 : Int) else 1) * _) = _
      rw [show (if s.head? = some '-' then (-1 : Int) else 1) = intLitSign s from rfl]
      rfl
    · show -(2 ^ 63) ≤ intLitVal s ∧ intLitVal s ≤ 2 ^ 63 - 1
      exact ⟨h3, h4⟩
  · rw [List.all_eq_true]
    intro c hc
    have := h2 c hc
    simp [this.1, this.2]

/-! ### The slave sub-parser on literal content, and `parseStep` dispatch -/

theorem parseSlavesLoop_cons {line : List Char} {name path : List Char}
    (ls : List (List Char)) (acc : List (List Char × List Char)) (n : Nat)
    (hsp : splitFirst ' ' line = some (name, path)) :
    parseSlavesLoop (line :: ls) acc n =
      parseSlavesLoop ls (mapSet acc name path) n := by
  simp only [parseSlavesLoop, hsp]

theorem parseSlavesLoop_cons_err {line : List Char}
    (ls : List (List Char)) (acc : List (List Char × List Char)) (n : Nat)
    (hsp : splitFirst ' ' line = none) :
    parseSlavesLoop (line :: ls) acc n =
      .error ⟨chars "malformed slaves line", n⟩ := by
  simp only [parseSlavesLoop, hsp]

theorem parseSlavesLoop_acc : ∀ sl : List SlaveLine,
    ∀ acc : List (List Char × List Char), ∀ n : Nat,
    (∀ p ∈ sl, ' ' ∉ p.name) →
    (∀ p ∈ sl, ∀ q ∈ acc, q.1 ≠ p.name) →
    (sl.map SlaveLine.name).Nodup →
    parseSlavesLoop (sl.map (fun p => p.name ++ ' ' :: p.path)) acc n =
      .ok (acc ++ sl.map (fun p => (p.name, p.path))) := by
  intro sl
  induction sl with
  | nil =>
    intro acc n h1 h2 h3
    simp [parseSlavesLoop]
  | cons p ps ih =>
    intro acc n h1 h2 h3
    have h3' : (∀ x ∈ ps, ¬x.name = p.name) ∧
        (List.map SlaveLine.name ps).Nodup := by simpa using h3
    rw [List.map_cons, parseSlavesLoop_cons _ acc n
      (splitFirst_find p.path (h1 p (List.mem_cons_self _ _)))]
    rw [mapSet_append p.path (h2 p (List.mem_cons_self _ _))]
    rw [ih (acc ++ [(p.name, p.path)]) n
      (fun q hq => h1 q (List.mem_cons_of_mem _ hq))
      (fun q hq r hr => by
        rcases List.mem_append.1 hr with hr | hr
        · exact h2 q (List.mem_cons_of_mem _ hq) r hr
        · have hrr : r = (p.name, p.path) := by simpa using hr
          subst hrr
          exact fun he => h3'.1 q hq he.symm)
      h3'.2]
    simp

theorem parseSlaves_literal {sl : List SlaveLine} (n : Nat) (hne : sl ≠ [])
    (hwf : ∀ p ∈ sl, SlWF p) (hnd : (sl.map SlaveLine.name).Nodup) :
    parseSlaves (joinNL (sl.map (fun p => p.name ++ ' ' :: p.path))) n =
      .ok (sl.map (fun p => (p.name, p.path))) := by
  unfold parseSlaves
  rw [splitOnNL_joinNL _ (by simpa using hne) (by
    intro l hl
    rcases List.mem_map.1 hl with ⟨p, hp, rfl⟩
    obtain ⟨-, -, hn1, -, hn2, -⟩ := hwf p hp
    intro hm
    rcases List.mem_append.1 hm with hm | hm
    · exact hn1 hm
    · rcases (List.mem_cons.1 hm) with hm | hm
      · cases hm
      · exact hn2 hm)]
  have := parseSlavesLoop_acc sl [] n
    (fun p hp => (hwf p hp).2.1)
    (fun p hp q hq => absurd hq (List.not_mem_nil q))
    hnd
  simpa using this

theorem finalize_eq (res : Alternatives) (cur : Option Alternative) :
    finalize res cur =
      { res with Alternatives := res.Alternatives ++ cur.toList } := by
  cases cur with
  | none => simp [finalize]
  | some alt => rfl

theorem parseStep_name (v : List Char) (n : Nat) (res : Alternatives) :
    parseStep (chars "Name") v n res none = .ok ({ res with Name := v }, none) := rfl

theorem parseStep_link (v : List Char) (n : Nat) (res : Alternatives) :
    parseStep (chars "Link") v n res none = .ok ({ res with Link := v }, none) := rfl

theorem parseStep_status (v : List Char) (n : Nat) (res : Alternatives) :
    parseStep (chars "Status") v n res none = .ok ({ res with Status := v }, none) := rfl

theorem parseStep_best (v : List Char) (n : Nat) (res : Alternatives) :
    parseStep (chars "Best") v n res none = .ok ({ res with Best := v }, none) := rfl

theorem parseStep_value (v : List Char) (n : Nat) (res : Alternatives) :
    parseStep (chars "Value") v n res none = .ok ({ res with Value := v }, none) := rfl

theorem parseStep_slaves_header {v : List Char} {s : List (List Char × List Char)}
    (n : Nat) (res : Alternatives) (hps : parseSlaves v n = .ok s) :
    parseStep (chars "Slaves") v n res none = .ok ({ res with Slaves := s }, none) := by
  simp only [parseStep]
  rw [hps]
  rfl

theorem parseStep_slaves_header_err {v : List Char} {e : ParseError}
    (n : Nat) (res : Alternatives) (hps : parseSlaves v n = .error e) :
    parseStep (chars "Slaves") v n res none = .error e := by
  simp only [parseStep]
  rw [hps]
  rfl

theorem parseStep_alternative_header (v : List Char) (n : Nat) (res : Alternatives) :
    parseStep (chars "Alternative") v n res none =
      .ok (res, some { newAlternative with Path := v }) := rfl

theorem parseStep_header_unknown {k : List Char} (v : List Char) (n : Nat)
    (res : Alternatives)
    (h1 : k ≠ chars "Name") (h2 : k ≠ chars "Link") (h3 : k ≠ chars "Slaves")
    (h4 : k ≠ chars "Status") (h5 : k ≠ chars "Best") (h6 : k ≠ chars "Value")
    (h7 : k ≠ chars "Alternative") :
    parseStep k v n res none = .error ⟨chars "unexpected key: " ++ k, n⟩ := by
  simp only [parseStep]
  rw [if_neg h1, if_neg h2, if_neg h3, if_neg h4, if_neg h5, if_neg h6, if_neg h7]

theorem parseStep_priority_ok {v : List Char} {p : Int} (n : Nat)
    (res : Alternatives) (alt : Alternative) (hv : atoi v = some p) :
    parseStep (chars "Priority") v n res (some alt) =
      .ok (res, some { alt with Priority := p }) := by
  simp only [parseStep]
  rw [hv]
  rfl

theorem parseStep_priority_err {v : List Char} (n : Nat)
    (res : Alternatives) (alt : Alternative) (hv : atoi v = none) :
    parseStep (chars "Priority") v n res (some alt) =
      .error ⟨chars "invalid priority value", n⟩ := by
  simp only [parseStep]
  rw [hv]
  rfl

theorem parseStep_slaves_alt {v : List Char} {s : List (List Char × List Char)}
    (n : Nat) (res : Alternatives) (alt : Alternative)
    (hps : parseSlaves v n = .ok s) :
    parseStep (chars "Slaves") v n res (some alt) =
      .ok (res, some { alt with Slaves := s }) := by
  simp only [parseStep]
  rw [hps]
  rfl

theorem parseStep_alternative_alt (v : List Char) (n : Nat)
    (res : Alternatives) (alt : Alternative) :
    parseStep (chars "Alternative") v n res (some alt) =
      .ok ({ res with Alternatives := res.Alternatives ++ [alt] },
        some { newAlternative with Path := v }) := rfl

theorem parseStep_alt_unknown {k : List Char} (v : List Char) (n : Nat)
    (res : Alternatives) (alt : Alternative)
    (h1 : k ≠ chars "Priority") (h2 : k ≠ chars "Slaves")
    (h3 : k ≠ chars "Alternative") :
    parseStep k v n res (some alt) =
      .error ⟨chars "unexpected key: " ++ k, n⟩ := by
  simp only [parseStep]
  rw [if_neg h1, if_neg h2, if_neg h3]

theorem parseStep_alternative (v : List Char) (n : Nat)
    (res : Alternatives) (cur : Option Alternative) :
    parseStep (chars "Alternative") v n res cur =
      .ok ({ res with Alternatives := res.Alternatives ++ cur.toList },
        some { newAlternative with Path := v }) := by
  cases cur with
  | none =>
    rw [parseStep_alternative_header]
    simp
  | some alt => rfl

/-! ### Plan-level parsing steps -/

theorem v1_of_tok {t : List Char} (ht : GoodTok t) :
    trimRightRN (trimLeftSp (trimRightRN (' ' :: t))) = t := by
  obtain ⟨hn, hr, hh⟩ := ht
  have h1 : trimRightRN (' ' :: t) = ' ' :: trimRightRN t :=
    trimRightRN_append_mid [] (by decide) (by decide)
  have h2 : trimRightRN t = t := trimRightRN_eq_self hr hn
  rw [h1, h2]
  have h3 : trimLeftSp (' ' :: t) = trimLeftSp t := by
    simp [trimLeftSp, List.dropWhile]
  rw [h3, trimLeftSp_eq_self hh, h2]

theorem contLine_slaveLine {p : SlaveLine} (hp : SlWF p) :
    contLine (slaveLineText p) = p.name ++ ' ' :: p.path := by
  obtain ⟨hne, hsp, hn1, hr1, hn2, hr2⟩ := hp
  unfold contLine slaveLineText
  have h1 : trimLeftSp (' ' :: (p.name ++ ' ' :: p.path)) =
      trimLeftSp (p.name ++ ' ' :: p.path) := by
    simp [trimLeftSp, List.dropWhile]
  rw [h1, trimLeftSp_eq_self (by
    cases hnm : p.name with
    | nil => exact absurd hnm hne
    | cons c cs =>
      have : c ≠ ' ' := fun hc => hsp (by rw [hnm, hc]; exact List.mem_cons_self _ _)
      simp [this])]
  refine trimRightRN_eq_self ?_ ?_
  · intro hm
    rcases List.mem_append.1 hm with hm | hm
    · exact hr1 hm
    · rcases List.mem_cons.1 hm with hm | hm
      · cases hm
      · exact hr2 hm
  · intro hm
    rcases List.mem_append.1 hm with hm | hm
    · exact hn1 hm
    · rcases List.mem_cons.1 hm with hm | hm
      · cases hm
      · exact hn2 hm

theorem readKeyValue_keyline {k t nl : List Char}
    (plan : List (List Char × List Char)) (n : Nat)
    (hwf : PlanWF ((k ++ ':' :: ' ' :: t, nl) :: plan))
    (hk : ':' ∉ k) (ht : GoodTok t) (hns : NotSpaceHead plan) :
    readKeyValue (renderPlan ((k ++ ':' :: ' ' :: t, nl) :: plan)) n =
      .ok (some ((k, t), renderPlan plan, n + 1)) := by
  have hwf' : PlanWF ((k ++ ':' :: ' ' :: t, nl) :: ([] ++ plan)) := hwf
  have hthis := readKeyValue_plan (' ' :: t) nl [] plan n hwf' hk
    (by intro p hp; exact absurd hp (List.not_mem_nil p)) hns
  simp only [List.nil_append, List.map_nil, List.length_nil, Nat.add_zero,
    contValue] at hthis
  rw [v1_of_tok ht] at hthis
  exact hthis

theorem slaveLine_content_facts {slplan : List (List Char × List Char)}
    {sl : List SlaveLine} (hmap : slplan.map Prod.fst = sl.map slaveLineText)
    (hswf : ∀ p ∈ sl, SlWF p) :
    ∀ p ∈ slplan, p.1.head? = some ' ' ∧ contLine p.1 ≠ [] := by
  intro p hp
  have hmem : p.1 ∈ sl.map slaveLineText := by
    rw [← hmap]
    exact List.mem_map_of_mem Prod.fst hp
  rcases List.mem_map.1 hmem with ⟨q, hq, hline⟩
  have hwfq := hswf q hq
  constructor
  · rw [← hline]
    rfl
  · rw [← hline, contLine_slaveLine hwfq]
    cases hqn : q.name with
    | nil => exact absurd hqn hwfq.1
    | cons c cs => simp

theorem readKeyValue_slaves {nl : List Char}
    {slplan plan : List (List Char × List Char)} {sl : List SlaveLine} (n : Nat)
    (hwf : PlanWF ((chars "Slaves: ", nl) :: (slplan ++ plan)))
    (hmap : slplan.map Prod.fst = sl.map slaveLineText)
    (hsl : sl ≠ []) (hswf : ∀ p ∈ sl, SlWF p)
    (hns : NotSpaceHead plan) :
    readKeyValue (renderPlan ((chars "Slaves: ", nl) :: (slplan ++ plan))) n =
      .ok (some ((chars "Slaves",
        joinNL (sl.map (fun p => p.name ++ ' ' :: p.path))),
        renderPlan plan, n + 1 + sl.length)) := by
  have hwf' : PlanWF ((chars "Slaves" ++ ':' :: [' '], nl) :: (slplan ++ plan)) := hwf
  have hfacts := slaveLine_content_facts hmap hswf
  have := readKeyValue_plan [' '] nl slplan plan n hwf' (by decide) hfacts hns
  rw [show renderPlan ((chars "Slaves: ", nl) :: (slplan ++ plan)) =
    renderPlan ((chars "Slaves" ++ ':' :: [' '], nl) :: (slplan ++ plan)) from rfl]
  rw [this]
  have hv1 : trimRightRN (trimLeftSp (trimRightRN [' '])) = [] := by decide
  rw [hv1]
  have hlines : slplan.map (fun p => contLine p.1) =
      sl.map (fun p => p.name ++ ' ' :: p.path) := by
    have : slplan.map (fun p => contLine p.1) =
        (slplan.map Prod.fst).map contLine := by
      rw [List.map_map]
      rfl
    rw [this, hmap, List.map_map]
    exact List.map_congr_left (fun q hq => contLine_slaveLine (hswf q hq))
  rw [hlines]
  have hlen : slplan.length = sl.length := by
    have := congrArg List.length hmap
    simpa using this
  rw [hlen]
  cases sl with
  | nil => exact absurd rfl hsl
  | cons q qs =>
    rw [List.map_cons, contValue_nil_cons]
    have hqne : q.name ++ ' ' :: q.path ≠ [] := by simp
    cases qs with
    | nil => rfl
    | cons q2 qs2 =>
      rw [contValue_ne _ _ hqne]

theorem parseLoop_congr2 {i1 i2 : List Char} {n1 n2 : Nat}
    (res : Alternatives) (cur : Option Alternative)
    (h : readKeyValue i1 n1 = readKeyValue i2 n2) :
    parseLoop i1 n1 res cur = parseLoop i2 n2 res cur := by
  cases hk : readKeyValue i2 n2 with
  | error e =>
    rw [parseLoop_error res cur (h.trans hk), parseLoop_error res cur hk]
  | ok o =>
    cases o with
    | none => rw [parseLoop_eof res cur (h.trans hk), parseLoop_eof res cur hk]
    | some x =>
      obtain ⟨⟨k, v⟩, rest, m⟩ := x
      cases hp : parseStep k v m res cur with
      | error e =>
        rw [parseLoop_step_error res cur (h.trans hk) hp,
          parseLoop_step_error res cur hk hp]
      | ok y =>
        obtain ⟨res', cur'⟩ := y
        rw [parseLoop_step res cur (h.trans hk) hp,
          parseLoop_step res cur hk hp]

theorem parseLoop_blanks {bplan plan : List (List Char × List Char)} (n : Nat)
    (res : Alternatives) (cur : Option Alternative)
    (hwf : PlanWF (bplan ++ plan)) (hb : ∀ p ∈ bplan, p.1 = []) :
    parseLoop (renderPlan (bplan ++ plan)) n res cur =
      parseLoop (renderPlan plan) (n + bplan.length) res cur :=
  parseLoop_congr2 res cur (readKeyValue_congr
    (seekLine_plan_blanks bplan plan n hwf
      (fun p hp => by rw [hb p hp]; rfl)))

theorem seekLine_all_blank (plan : List (List Char × List Char)) (n : Nat)
    (hwf : PlanWF plan) (hb : ∀ p ∈ plan, p.1 = []) :
    seekLine (renderPlan plan) n = none := by
  have hwf' : PlanWF (plan ++ []) := by rwa [List.append_nil]
  have := seekLine_plan_blanks plan [] n hwf'
    (fun p hp => by rw [hb p hp]; rfl)
  rw [List.append_nil] at this
  rw [this]
  rfl

theorem parseLoop_final (plan : List (List Char × List Char)) (n : Nat)
    (res : Alternatives) (cur : Option Alternative)
    (hwf : PlanWF plan) (hb : ∀ p ∈ plan, p.1 = []) :
    parseLoop (renderPlan plan) n res cur = .ok (finalize res cur) :=
  parseLoop_eof res cur (readKeyValue_none (seekLine_all_blank plan n hwf hb))

theorem plan_cons_of_map {α β : Type} {plan : List (α × β)} {a : α} {rest : List α}
    (h : plan.map Prod.fst = a :: rest) :
    ∃ nl plan', plan = (a, nl) :: plan' ∧ plan'.map Prod.fst = rest := by
  cases plan with
  | nil => simp at h
  | cons x xs =>
    obtain ⟨l, nl⟩ := x
    simp only [List.map_cons, List.cons.injEq] at h
    exact ⟨nl, xs, by rw [h.1], h.2⟩

theorem plan_append_of_map {α β : Type} {plan : List (α × β)} {A B : List α}
    (h : plan.map Prod.fst = A ++ B) :
    ∃ p1 p2, plan = p1 ++ p2 ∧ p1.map Prod.fst = A ∧ p2.map Prod.fst = B :=
  List.append_eq_map_iff.mp h.symm

theorem ne_space_head {l : List Char} {c : Char}
    (heq : l.head? = some c) (hc : c ≠ ' ') : l.head? ≠ some ' ' := by
  rw [heq]
  intro h
  exact hc (by injection h)

theorem notSpaceHead_nil : NotSpaceHead [] := trivial

theorem notSpaceHead_cons {l nl : List Char} {rest : List (List Char × List Char)}
    (h : l.head? ≠ some ' ') : NotSpaceHead ((l, nl) :: rest) := h

theorem notSpaceHead_of_map {plan : List (List Char × List Char)}
    {L : List (List Char)} (hmap : plan.map Prod.fst = L)
    (hL : ∀ l ls, L = l :: ls → l.head? ≠ some ' ') : NotSpaceHead plan := by
  cases plan with
  | nil => trivial
  | cons x ps =>
    obtain ⟨l, nl⟩ := x
    simp only [List.map_cons] at hmap
    exact notSpaceHead_cons (hL l (ps.map Prod.fst) hmap.symm)

theorem notSpaceHead_blocks {plan : List (List Char × List Char)}
    {rest : List (Nat × GAlt)} {t : Nat}
    (hmap : plan.map Prod.fst = blocksLines rest ++ List.replicate t []) :
    NotSpaceHead plan := by
  refine notSpaceHead_of_map hmap ?_
  intro l ls heq
  cases rest with
  | nil =>
    rw [show blocksLines [] = [] from rfl, List.nil_append] at heq
    have : l ∈ List.replicate t ([] : List Char) := by
      rw [heq]
      exact List.mem_cons_self _ _
    rw [List.eq_of_mem_replicate this]
    simp
  | cons ba bs =>
    obtain ⟨b, a⟩ := ba
    rw [show blocksLines ((b, a) :: bs) =
      List.replicate b [] ++ altLines a ++ blocksLines bs from rfl] at heq
    cases b with
    | zero =>
      simp only [List.replicate, List.nil_append] at heq
      rw [show altLines a = (chars "Alternative: " ++ a.path) ::
        ((chars "Priority: " ++ a.prio) :: slavesLines a.slaves) from rfl] at heq
      simp only [List.cons_append, List.cons.injEq] at heq
      rw [← heq.1]
      exact ne_space_head rfl (by decide)
    | succ b' =>
      rw [show List.replicate (b' + 1) ([] : List Char) =
        [] :: List.replicate b' [] from rfl] at heq
      simp only [List.cons_append, List.cons.injEq] at heq
      rw [← heq.1]
      simp

theorem parseLoop_key_step {k t nl : List Char}
    {plan : List (List Char × List Char)} {n : Nat}
    {res res' : Alternatives} {cur cur' : Option Alternative}
    (hwf : PlanWF ((k ++ ':' :: ' ' :: t, nl) :: plan)) (hk : ':' ∉ k)
    (ht : GoodTok t) (hns : NotSpaceHead plan)
    (hstep : parseStep k t (n + 1) res cur = .ok (res', cur')) :
    parseLoop (renderPlan ((k ++ ':' :: ' ' :: t, nl) :: plan)) n res cur =
      parseLoop (renderPlan plan) (n + 1) res' cur' :=
  parseLoop_step res cur (readKeyValue_keyline plan n hwf hk ht hns) hstep

theorem parseLoop_slaves_step {nl : List Char}
    {slplan plan : List (List Char × List Char)} {sl : List SlaveLine} {n : Nat}
    {res res' : Alternatives} {cur cur' : Option Alternative}
    (hwf : PlanWF ((chars "Slaves: ", nl) :: (slplan ++ plan)))
    (hmap : slplan.map Prod.fst = sl.map slaveLineText)
    (hsl : sl ≠ []) (hswf : ∀ p ∈ sl, SlWF p) (hns : NotSpaceHead plan)
    (hstep : parseStep (chars "Slaves")
      (joinNL (sl.map (fun p => p.name ++ ' ' :: p.path)))
      (n + 1 + sl.length) res cur = .ok (res', cur')) :
    parseLoop (renderPlan ((chars "Slaves: ", nl) :: (slplan ++ plan))) n res cur =
      parseLoop (renderPlan plan) (n + 1 + sl.length) res' cur' :=
  parseLoop_step res cur (readKeyValue_slaves n hwf hmap hsl hswf hns) hstep

theorem goodTok_of_status {s : List Char}
    (h : s = chars "auto" ∨ s = chars "manual") : GoodTok s := by
  rcases h with h | h <;>
    (subst h; exact ⟨by decide, by decide, by decide⟩)

theorem parseLoop_header (h : GHeader) (planH plan' : List (List Char × List Char))
    (hwf : PlanWF (planH ++ plan'))
    (hmap : planH.map Prod.fst = headerLines h)
    (hh : HeaderWF h) (hns : NotSpaceHead plan') :
    ∃ m : Nat,
      parseLoop (renderPlan (planH ++ plan')) 0 newAlternatives none =
        parseLoop (renderPlan plan') m
          ⟨h.name, h.link, slavesMapOf h.slaves, h.status, h.best, h.value, []⟩
          none := by
  obtain ⟨htn, htl, hts, htb, htv, hsw⟩ := hh
  have hmap' : planH.map Prod.fst =
      (chars "Name: " ++ h.name) :: (chars "Link: " ++ h.link) ::
        (slavesLines h.slaves ++
          [chars "Status: " ++ h.status, chars "Best: " ++ h.best,
            chars "Value: " ++ h.value]) := by
    rw [hmap]
    rfl
  obtain ⟨nl1, q1, rfl, hm1⟩ := plan_cons_of_map hmap'
  obtain ⟨nl2, q2, rfl, hm2⟩ := plan_cons_of_map hm1
  obtain ⟨pS, pT, rfl, hmS, hmT⟩ := plan_append_of_map hm2
  obtain ⟨nl5, q5, rfl, hm5⟩ := plan_cons_of_map hmT
  obtain ⟨nl6, q6, rfl, hm6⟩ := plan_cons_of_map hm5
  obtain ⟨nl7, q7, rfl, hm7⟩ := plan_cons_of_map hm6
  have hq7 : q7 = [] := by simpa using hm7
  subst hq7
  cases hsl : h.slaves with
  | none =>
    rw [hsl] at hmS
    have hpS : pS = [] := by simpa [slavesLines] using hmS
    subst hpS
    exact ⟨_, by
      have hwf0 : PlanWF ((chars "Name" ++ ':' :: ' ' :: h.name, nl1) ::
          ((chars "Link" ++ ':' :: ' ' :: h.link, nl2) ::
            ((chars "Status" ++ ':' :: ' ' :: h.status, nl5) ::
              ((chars "Best" ++ ':' :: ' ' :: h.best, nl6) ::
                ((chars "Value" ++ ':' :: ' ' :: h.value, nl7) :: plan'))))) := hwf
      refine Eq.trans (parseLoop_key_step hwf0 (by decide) htn
        (notSpaceHead_cons (ne_space_head rfl (by decide)))
        (parseStep_name h.name _ _)) ?_
      refine Eq.trans (parseLoop_key_step hwf0.2.2 (by decide) htl
        (notSpaceHead_cons (ne_space_head rfl (by decide)))
        (parseStep_link h.link _ _)) ?_
      refine Eq.trans (parseLoop_key_step hwf0.2.2.2.2 (by decide)
        (goodTok_of_status hts)
        (notSpaceHead_cons (ne_space_head rfl (by decide)))
        (parseStep_status h.status _ _)) ?_
      refine Eq.trans (parseLoop_key_step hwf0.2.2.2.2.2.2 (by decide) htb
        (notSpaceHead_cons (ne_space_head rfl (by decide)))
        (parseStep_best h.best _ _)) ?_
      refine Eq.trans (parseLoop_key_step hwf0.2.2.2.2.2.2.2.2 (by decide) htv
        hns (parseStep_value h.value _ _)) ?_
      exact rfl⟩
  | some sl =>
    rw [hsl] at hmS
    rw [show slavesLines (some sl) = chars "Slaves: " :: sl.map slaveLineText
      from rfl] at hmS
    obtain ⟨nl3, q3, rfl, hm3⟩ := plan_cons_of_map hmS
    rw [hsl] at hsw
    obtain ⟨hne, hswf, hnd⟩ := hsw
    rw [show (((chars "Name: " ++ h.name, nl1) :: (chars "Link: " ++ h.link, nl2) ::
        (((chars "Slaves: ", nl3) :: q3) ++
          ((chars "Status: " ++ h.status, nl5) :: (chars "Best: " ++ h.best, nl6) ::
            (chars "Value: " ++ h.value, nl7) :: []))) ++ plan') =
      ((chars "Name: " ++ h.name, nl1) :: (chars "Link: " ++ h.link, nl2) ::
        (chars "Slaves: ", nl3) ::
          (q3 ++ ((chars "Status: " ++ h.status, nl5) :: (chars "Best: " ++ h.best, nl6) ::
            (chars "Value: " ++ h.value, nl7) :: plan'))) from by
      simp [List.append_assoc]] at hwf ⊢
    exact ⟨_, by
      have hwf0 : PlanWF ((chars "Name" ++ ':' :: ' ' :: h.name, nl1) ::
          ((chars "Link" ++ ':' :: ' ' :: h.link, nl2) ::
            ((chars "Slaves: ", nl3) ::
              (q3 ++ ((chars "Status" ++ ':' :: ' ' :: h.status, nl5) ::
                ((chars "Best" ++ ':' :: ' ' :: h.best, nl6) ::
                  ((chars "Value" ++ ':' :: ' ' :: h.value, nl7) :: plan'))))))) := hwf
      refine Eq.trans (parseLoop_key_step hwf0 (by decide) htn
        (notSpaceHead_cons (ne_space_head rfl (by decide)))
        (parseStep_name h.name _ _)) ?_
      refine Eq.trans (parseLoop_key_step hwf0.2.2 (by decide) htl
        (notSpaceHead_cons (ne_space_head rfl (by decide)))
        (parseStep_link h.link _ _)) ?_
      refine Eq.trans (parseLoop_slaves_step hwf0.2.2.2.2 hm3 hne hswf
        (notSpaceHead_cons (ne_space_head rfl (by decide)))
        (parseStep_slaves_header _ _ (parseSlaves_literal _ hne hswf hnd))) ?_
      have hwf3 : PlanWF ((chars "Status" ++ ':' :: ' ' :: h.status, nl5) ::
          ((chars "Best" ++ ':' :: ' ' :: h.best, nl6) ::
            ((chars "Value" ++ ':' :: ' ' :: h.value, nl7) :: plan'))) :=
        PlanWF_append_right hwf0.2.2.2.2.2.2
      refine Eq.trans (parseLoop_key_step hwf3 (by decide)
        (goodTok_of_status hts)
        (notSpaceHead_cons (ne_space_head rfl (by decide)))
        (parseStep_status h.status _ _)) ?_
      refine Eq.trans (parseLoop_key_step hwf3.2.2 (by decide) htb
        (notSpaceHead_cons (ne_space_head rfl (by decide)))
        (parseStep_best h.best _ _)) ?_
      refine Eq.trans (parseLoop_key_step hwf3.2.2.2.2 (by decide) htv
        hns (parseStep_value h.value _ _)) ?_
      exact rfl⟩

theorem mem_of_head?_eq {c : Char} {s : List Char} (h : s.head? = some c) :
    c ∈ s := by
  cases s with
  | nil => cases h
  | cons d ds =>
    have : d = c := by injection h
    rw [this]
    exact List.mem_cons_self _ _

theorem intLit_chars {s : List Char} (h : IsIntLit s) :
    ∀ c ∈ s, c = '+' ∨ c = '-' ∨ ('0' ≤ c ∧ c ≤ '9') := by
  obtain ⟨h1, h2, -⟩ := h
  intro c hc
  by_cases hsign : s.head? = some '+' ∨ s.head? = some '-'
  · cases s with
    | nil => cases hc
    | cons d ds =>
      rcases List.mem_cons.1 hc with hc | hc
      · rcases hsign with hs | hs
        · exact Or.inl (hc.trans (Option.some.inj hs))
        · exact Or.inr (Or.inl (hc.trans (Option.some.inj hs)))
      · have hds : intLitDigits (d :: ds) = ds := by
          unfold intLitDigits
          rw [if_pos hsign]
          rfl
        exact Or.inr (Or.inr (h2 c (by rw [hds]; exact hc)))
  · have hs : intLitDigits s = s := by
      unfold intLitDigits
      rw [if_neg hsign]
    exact Or.inr (Or.inr (h2 c (by rw [hs]; exact hc)))

theorem goodTok_of_intLit {s : List Char} (h : IsIntLit s) : GoodTok s := by
  have hch := intLit_chars h
  refine ⟨?_, ?_, ?_⟩
  · intro hm
    rcases hch '\n' hm with hc | hc | hc <;> simp_all
  · intro hm
    rcases hch '\r' hm with hc | hc | hc <;> simp_all
  · intro hm
    have := hch ' ' (mem_of_head?_eq hm)
    rcases this with hc | hc | hc <;> simp_all

set_option maxHeartbeats 1000000 in
theorem parseLoop_blocks : ∀ balts : List (Nat × GAlt),
    ∀ plan : List (List Char × List Char), ∀ t n : Nat, ∀ res : Alternatives,
    ∀ cur : Option Alternative,
    PlanWF plan →
    plan.map Prod.fst = blocksLines balts ++ List.replicate t [] →
    (∀ ba ∈ balts, AltWF ba.2) →
    parseLoop (renderPlan plan) n res cur =
      .ok { res with Alternatives :=
        res.Alternatives ++ cur.toList ++ (balts.map Prod.snd).map toAlt } := by
  intro balts
  induction balts with
  | nil =>
    intro plan t n res cur hwf hmap halt
    have hb : ∀ p ∈ plan, p.1 = [] := by
      intro p hp
      have hmem : p.1 ∈ plan.map Prod.fst := List.mem_map_of_mem Prod.fst hp
      rw [hmap, show blocksLines [] = [] from rfl, List.nil_append] at hmem
      exact List.eq_of_mem_replicate hmem
    rw [parseLoop_final plan n res cur hwf hb, finalize_eq]
    simp
  | cons ba rest ih =>
    intro plan t n res cur hwf hmap halt
    obtain ⟨b, a⟩ := ba
    obtain ⟨hga, hil, hsw⟩ := halt (b, a) (List.mem_cons_self _ _)
    have halt' : ∀ x ∈ rest, AltWF x.2 :=
      fun x hx => halt x (List.mem_cons_of_mem _ hx)
    rw [show blocksLines ((b, a) :: rest) ++ List.replicate t [] =
      List.replicate b [] ++ ((chars "Alternative: " ++ a.path) ::
        ((chars "Priority: " ++ a.prio) ::
          (slavesLines a.slaves ++ (blocksLines rest ++ List.replicate t []))))
      from by simp [blocksLines, altLines, List.append_assoc]] at hmap
    obtain ⟨pB, pR, rfl, hmB, hmR⟩ := plan_append_of_map hmap
    obtain ⟨nlA, qA, rfl, hmA⟩ := plan_cons_of_map hmR
    obtain ⟨nlP, qP, rfl, hmP⟩ := plan_cons_of_map hmA
    refine Eq.trans (parseLoop_blanks n res cur hwf (fun p hp => by
      have hmem : p.1 ∈ pB.map Prod.fst := List.mem_map_of_mem Prod.fst hp
      rw [hmB] at hmem
      exact List.eq_of_mem_replicate hmem)) ?_
    have hwfR : PlanWF ((chars "Alternative" ++ ':' :: ' ' :: a.path, nlA) ::
        ((chars "Priority: " ++ a.prio, nlP) :: qP)) := PlanWF_append_right hwf
    refine Eq.trans (parseLoop_key_step hwfR (by decide) hga
      (notSpaceHead_cons (ne_space_head rfl (by decide)))
      (parseStep_alternative a.path _ _ cur)) ?_
    cases hsa : a.slaves with
    | none =>
      rw [hsa, show slavesLines none = [] from rfl, List.nil_append] at hmP
      have hwfP : PlanWF ((chars "Priority" ++ ':' :: ' ' :: a.prio, nlP) :: qP) :=
        hwfR.2.2
      refine Eq.trans (parseLoop_key_step hwfP (by decide) (goodTok_of_intLit hil)
        (notSpaceHead_blocks hmP)
        (parseStep_priority_ok _ _ _ (atoi_intLit hil))) ?_
      refine Eq.trans (ih qP t _ _ _ hwfP.2.2 hmP halt') ?_
      simp [toAlt, hsa, slavesMapOf, newAlternative, List.append_assoc]
    | some sl =>
      rw [hsa] at hmP
      rw [hsa] at hsw
      obtain ⟨hne, hswf, hnd⟩ := hsw
      have hmP' : qP.map Prod.fst = chars "Slaves: " ::
          (sl.map slaveLineText ++ (blocksLines rest ++ List.replicate t [])) := hmP
      obtain ⟨nlS, qS, rfl, hmS2⟩ := plan_cons_of_map hmP'
      obtain ⟨pSl, pN, rfl, hmSl, hmN⟩ := plan_append_of_map hmS2
      have hwfP : PlanWF ((chars "Priority" ++ ':' :: ' ' :: a.prio, nlP) ::
          ((chars "Slaves: ", nlS) :: (pSl ++ pN))) := hwfR.2.2
      refine Eq.trans (parseLoop_key_step hwfP (by decide) (goodTok_of_intLit hil)
        (notSpaceHead_cons (ne_space_head rfl (by decide)))
        (parseStep_priority_ok _ _ _ (atoi_intLit hil))) ?_
      have hwfS : PlanWF ((chars "Slaves: ", nlS) :: (pSl ++ pN)) := hwfP.2.2
      refine Eq.trans (parseLoop_slaves_step hwfS hmSl hne hswf
        (notSpaceHead_blocks hmN)
        (parseStep_slaves_alt _ _ _ (parseSlaves_literal _ hne hswf hnd))) ?_
      refine Eq.trans (ih pN t _ _ _ (PlanWF_append_right hwfS.2.2) hmN halt') ?_
      simp [toAlt, hsa, slavesMapOf, newAlternative, List.append_assoc]

/-- Any input matching the grammar parses to exactly the record built from
its literal field values. -/
theorem matches_parse {s : List Char} {h : GHeader} {alts : List GAlt}
    (hm : Matches s h alts) : parseString s = .ok (toRecord h alts) := by
  obtain ⟨hh, halts, plan, balts, t, hwf, hmap, hba, rfl⟩ := hm
  rw [List.append_assoc] at hmap
  obtain ⟨pH, pB, rfl, hmH, hmB⟩ := plan_append_of_map hmap
  have hwfB : PlanWF pB := PlanWF_append_right hwf
  obtain ⟨m, hm1⟩ := parseLoop_header h pH pB hwf hmH hh (notSpaceHead_blocks hmB)
  show parseLoop (renderPlan (pH ++ pB)) 0 newAlternatives none = _
  rw [hm1]
  rw [parseLoop_blocks balts pB t m _ none hwfB hmB (fun ba hba' => by
    have hmem : ba.2 ∈ alts := by
      rw [← hba]
      exact List.mem_map_of_mem Prod.snd hba'
    exact halts ba.2 hmem)]
  simp [toRecord, hba]

theorem crlf_no_nl {s : List Char} (h : '\n' ∉ s) : crlf s = s := by
  induction s with
  | nil => rfl
  | cons c cs ih =>
    have hc : c ≠ '\n' := fun hc => h (hc ▸ List.mem_cons_self c cs)
    have hcs : '\n' ∉ cs := fun hm => h (List.mem_cons_of_mem c hm)
    simp [crlf, hc, ih hcs]

theorem crlf_append {l : List Char} (r : List Char) (h : '\n' ∉ l) :
    crlf (l ++ '\n' :: r) = (l ++ ['\r']) ++ '\n' :: crlf r := by
  induction l with
  | nil => simp [crlf]
  | cons c cs ih =>
    have hc : c ≠ '\n' := fun hc => h (hc ▸ List.mem_cons_self c cs)
    have hcs : '\n' ∉ cs := fun hm => h (List.mem_cons_of_mem c hm)
    simp [crlf, hc, ih hcs]

theorem exists_first_nl {s : List Char} (h : '\n' ∈ s) :
    ∃ l r, s = l ++ '\n' :: r ∧ '\n' ∉ l := by
  induction s with
  | nil => cases h
  | cons c cs ih =>
    by_cases hc : c = '\n'
    · exact ⟨[], cs, by rw [hc]; rfl, List.not_mem_nil _⟩
    · have hcs : '\n' ∈ cs := by
        rcases List.mem_cons.1 h with h | h
        · exact absurd h.symm hc
        · exact h
      obtain ⟨l, r, rfl, hl⟩ := ih hcs
      exact ⟨c :: l, r, rfl, by
        intro hm
        rcases List.mem_cons.1 hm with hm | hm
        · exact hc hm.symm
        · exact hl hm⟩

theorem seekLine_crlf_bounded : ∀ N : Nat, ∀ s : List Char, s.length ≤ N →
    ∀ n : Nat, seekLine (crlf s) n =
      (seekLine s n).map (fun p => (p.1, crlf p.2.1, p.2.2)) := by
  intro N
  induction N with
  | zero =>
    intro s hle n
    have hs : s = [] := List.eq_nil_of_length_eq_zero (Nat.le_zero.1 hle)
    subst hs
    rfl
  | succ N ih =>
    intro s hle n
    by_cases hnl : '\n' ∈ s
    · obtain ⟨l, r, rfl, hl⟩ := exists_first_nl hnl
      have hrlen : r.length ≤ N := by
        have hlen : (l ++ '\n' :: r).length = l.length + (r.length + 1) := by
          simp [List.length_append]
        omega
      rw [crlf_append r hl]
      by_cases hb : trimRightRN l = []
      · rw [seekLine_step_blank (crlf r) n (not_nl_append_cr hl)
          (by rw [trimRightRN_append_cr]; exact hb)]
        rw [seekLine_step_blank r n hl hb]
        exact ih r hrlen (n + 1)
      · rw [seekLine_step_line (crlf r) n (not_nl_append_cr hl)
          (by rw [trimRightRN_append_cr]; exact hb)]
        rw [seekLine_step_line r n hl hb]
        rw [trimRightRN_append_cr]
        rfl
    · rw [crlf_no_nl hnl]
      by_cases hb : trimRightRN s = []
      · rw [seekLine_eof n hnl hb]
        rfl
      · rw [seekLine_last n hnl hb]
        rfl

theorem readCont_crlf_bounded : ∀ N : Nat, ∀ s : List Char, s.length ≤ N →
    ∀ v : List Char, ∀ n : Nat,
    readCont (crlf s) v n = ((readCont s v n).1, crlf (readCont s v n).2.1,
      (readCont s v n).2.2) := by
  intro N
  induction N with
  | zero =>
    intro s hle v n
    have hs : s = [] := List.eq_nil_of_length_eq_zero (Nat.le_zero.1 hle)
    subst hs
    rfl
  | succ N ih =>
    intro s hle v n
    cases s with
    | nil => rfl
    | cons c cs =>
      by_cases hc : c = '\n'
      · subst hc
        rw [show crlf ('\n' :: cs) = '\r' :: '\n' :: crlf cs from by simp [crlf]]
        rw [readCont_stop v n (by simp), readCont_stop v n (by simp)]
        simp [crlf]
      · by_cases hsp : c = ' '
        · by_cases hnl : '\n' ∈ c :: cs
          · obtain ⟨l, r, heq, hl⟩ := exists_first_nl hnl
            have hlh : l.head? = some ' ' := by
              cases l with
              | nil =>
                rw [show ([] : List Char) ++ '\n' :: r = '\n' :: r from rfl] at heq
                have : c = '\n' := by injection heq
                exact absurd this hc
              | cons d ds =>
                have : c = d := by
                  rw [List.cons_append] at heq
                  injection heq
                simp [← this, hsp]
            have hrlen : r.length ≤ N := by
              have h2 : cs.length + 1 = l.length + (r.length + 1) := by
                have := congrArg List.length heq
                simpa using this
              have h3 : cs.length + 1 ≤ N + 1 := by simpa using hle
              omega
            rw [heq, crlf_append r hl]
            rw [show (l ++ ['\r']) ++ '\n' :: crlf r = (l ++ ['\r']) ++ '\n' :: crlf r
              from rfl]
            rw [readCont_step (crlf r) v n
              (by cases l with
                | nil => simp at hlh
                | cons d ds => simpa using hlh)
              (not_nl_append_cr hl)]
            rw [readCont_step r v n hlh hl]
            rw [contLine_append_cr]
            exact ih r hrlen (contAppend v (contLine l)) (n + 1)
          · rw [crlf_no_nl hnl]
            have hh : (c :: cs).head? = some ' ' := by simp [hsp]
            by_cases hcl : contLine (c :: cs) = []
            · rw [readCont_eof_break v n hh hnl hcl]
              rfl
            · rw [readCont_eof_append v n hh hnl hcl]
              rfl
        · rw [show crlf (c :: cs) = c :: crlf cs from by simp [crlf, hc]]
          rw [readCont_stop v n (by simp [hsp]), readCont_stop v n (by simp [hsp])]
          simp [crlf, hc]

theorem readKeyValue_crlf (s : List Char) (n : Nat) :
    readKeyValue (crlf s) n =
      match readKeyValue s n with
      | .error e => .error e
      | .ok none => .ok none
      | .ok (some (p, rest, m)) => .ok (some (p, crlf rest, m)) := by
  cases hs : seekLine s n with
  | none =>
    have hc : seekLine (crlf s) n = none := by
      rw [seekLine_crlf_bounded s.length s (le_refl _) n, hs]
      rfl
    rw [readKeyValue_none hc, readKeyValue_none hs]
  | some x =>
    obtain ⟨line, rest, m⟩ := x
    have hc : seekLine (crlf s) n = some (line, crlf rest, m) := by
      rw [seekLine_crlf_bounded s.length s (le_refl _) n, hs]
      rfl
    cases hsp : splitFirst ':' line with
    | none =>
      rw [readKeyValue_split_none hc hsp, readKeyValue_split_none hs hsp]
    | some kv =>
      obtain ⟨k, v0⟩ := kv
      rw [readKeyValue_split_some hc hsp, readKeyValue_split_some hs hsp]
      rw [readCont_crlf_bounded rest.length rest (le_refl _)
        (trimRightRN (trimLeftSp v0)) m]

theorem parseLoop_crlf_bounded : ∀ N : Nat, ∀ s : List Char, s.length ≤ N →
    ∀ n : Nat, ∀ res : Alternatives, ∀ cur : Option Alternative,
    parseLoop (crlf s) n res cur = parseLoop s n res cur := by
  intro N
  induction N with
  | zero =>
    intro s hle n res cur
    have hs : s = [] := List.eq_nil_of_length_eq_zero (Nat.le_zero.1 hle)
    subst hs
    rfl
  | succ N ih =>
    intro s hle n res cur
    have hkc := readKeyValue_crlf s n
    cases hk : readKeyValue s n with
    | error e =>
      rw [hk] at hkc
      rw [parseLoop_error res cur hkc, parseLoop_error res cur hk]
    | ok o =>
      cases o with
      | none =>
        rw [hk] at hkc
        rw [parseLoop_eof res cur hkc, parseLoop_eof res cur hk]
      | some x =>
        obtain ⟨⟨k, v⟩, rest, m⟩ := x
        rw [hk] at hkc
        have hrest : rest.length ≤ N := by
          have := readKeyValue_rest_lt hk
          omega
        cases hp : parseStep k v m res cur with
        | error e =>
          rw [parseLoop_step_error res cur hkc hp,
            parseLoop_step_error res cur hk hp]
        | ok y =>
          obtain ⟨res', cur'⟩ := y
          rw [parseLoop_step res cur hkc hp, parseLoop_step res cur hk hp]
          exact ih rest hrest m res' cur'

theorem parseString_crlf_eq (s : List Char) :
    parseString (crlf s) = parseString s :=
  parseLoop_crlf_bounded s.length s (le_refl _) 0 newAlternatives none

theorem altPathsF_succ_error {input : List Char} {n : Nat} {e : ParseError}
    (f : Nat) (h : readKeyValue input n = .error e) :
    altPathsF (f + 1) input n = [] := by
  simp only [altPathsF, h]

theorem altPathsF_succ_none {input : List Char} {n : Nat}
    (f : Nat) (h : readKeyValue input n = .ok none) :
    altPathsF (f + 1) input n = [] := by
  simp only [altPathsF, h]

theorem altPathsF_succ_some {input rest k v : List Char} {n m : Nat}
    (f : Nat) (h : readKeyValue input n = .ok (some ((k, v), rest, m))) :
    altPathsF (f + 1) input n =
      if k = chars "Alternative" then v :: altPathsF f rest m
      else altPathsF f rest m := by
  simp only [altPathsF, h]

theorem altPathsF_congr : ∀ f1 f2 : Nat, ∀ input : List Char, ∀ n : Nat,
    input.length < f1 → input.length < f2 →
    altPathsF f1 input n = altPathsF f2 input n := by
  intro f1
  induction f1 with
  | zero => intro f2 input n h1; omega
  | succ g ih =>
    intro f2 input n h1 h2
    cases f2 with
    | zero => omega
    | succ g2 =>
      cases hk : readKeyValue input n with
      | error e => rw [altPathsF_succ_error g hk, altPathsF_succ_error g2 hk]
      | ok o =>
        cases o with
        | none => rw [altPathsF_succ_none g hk, altPathsF_succ_none g2 hk]
        | some x =>
          obtain ⟨⟨k, v⟩, rest, m⟩ := x
          have hlt := readKeyValue_rest_lt hk
          rw [altPathsF_succ_some g hk, altPathsF_succ_some g2 hk,
            ih g2 rest m (by omega) (by omega)]

theorem altPaths_error {input : List Char} {n : Nat} {e : ParseError}
    (h : readKeyValue input n = .error e) : altPaths input n = [] :=
  altPathsF_succ_error _ h

theorem altPaths_none {input : List Char} {n : Nat}
    (h : readKeyValue input n = .ok none) : altPaths input n = [] :=
  altPathsF_succ_none _ h

theorem altPaths_some {input rest k v : List Char} {n m : Nat}
    (h : readKeyValue input n = .ok (some ((k, v), rest, m))) :
    altPaths input n =
      if k = chars "Alternative" then v :: altPaths rest m
      else altPaths rest m := by
  unfold altPaths
  rw [altPathsF_succ_some input.length h,
    altPathsF_congr input.length (rest.length + 1) rest m
      (readKeyValue_rest_lt h) (by omega)]

theorem parseStep_paths {k v : List Char} {n : Nat} {res res' : Alternatives}
    {cur cur' : Option Alternative}
    (hp : parseStep k v n res cur = .ok (res', cur')) :
    res'.Alternatives.map Alternative.Path ++
        (cur'.map Alternative.Path).toList =
      res.Alternatives.map Alternative.Path ++
        (cur.map Alternative.Path).toList ++
        (if k = chars "Alternative" then [v] else []) := by
  cases cur with
  | none =>
    simp only [parseStep] at hp
    split_ifs at hp with h1 h2 h3 h4 h5 h6 h7
    · cases hp
      simp [h1, (by decide : ¬chars "Name" = chars "Alternative")]
    · cases hp
      simp [h2, (by decide : ¬chars "Link" = chars "Alternative")]
    · cases hps : parseSlaves v n with
      | error e => rw [hps] at hp; cases hp
      | ok sv =>
        rw [hps] at hp
        cases hp
        simp [h3, (by decide : ¬chars "Slaves" = chars "Alternative")]
    · cases hp
      simp [h4, (by decide : ¬chars "Status" = chars "Alternative")]
    · cases hp
      simp [h5, (by decide : ¬chars "Best" = chars "Alternative")]
    · cases hp
      simp [h6, (by decide : ¬chars "Value" = chars "Alternative")]
    · cases hp
      simp [h7, newAlternative]
  | some alt =>
    simp only [parseStep] at hp
    split_ifs at hp with h1 h2 h3
    · cases hv : atoi v with
      | none => rw [hv] at hp; cases hp
      | some p =>
        rw [hv] at hp
        cases hp
        have hk : k ≠ chars "Alternative" := by rw [h1]; decide
        simp [hk]
    · cases hps : parseSlaves v n with
      | error e => rw [hps] at hp; cases hp
      | ok sv =>
        rw [hps] at hp
        cases hp
        have hk : k ≠ chars "Alternative" := by rw [h2]; decide
        simp [hk]
    · cases hp
      simp [h3, newAlternative]

theorem parseLoopF_paths : ∀ f : Nat, ∀ input : List Char, ∀ n : Nat,
    ∀ res : Alternatives, ∀ cur : Option Alternative, ∀ r : Alternatives,
    input.length < f →
    parseLoopF f input n res cur = .ok r →
    r.Alternatives.map Alternative.Path =
      res.Alternatives.map Alternative.Path ++
        (cur.map Alternative.Path).toList ++ altPaths input n := by
  intro f
  induction f with
  | zero => intro input n res cur r h1; omega
  | succ g ih =>
    intro input n res cur r h1 h
    cases hk : readKeyValue input n with
    | error e =>
      rw [parseLoopF_succ_error g res cur hk] at h
      cases h
    | ok o =>
      cases o with
      | none =>
        rw [parseLoopF_succ_none g res cur hk] at h
        have hr : r = finalize res cur := by
          injection h with h
          exact h.symm
        subst hr
        rw [altPaths_none hk, finalize_eq]
        cases cur with
        | none => simp
        | some alt => simp
      | some x =>
        obtain ⟨⟨k, v⟩, rest, m⟩ := x
        have hlt := readKeyValue_rest_lt hk
        rw [parseLoopF_succ_some g res cur hk] at h
        cases hp : parseStep k v m res cur with
        | error e => rw [hp] at h; cases h
        | ok y =>
          obtain ⟨res', cur'⟩ := y
          rw [hp] at h
          have hih := ih rest m res' cur' r (by omega) h
          have hps := parseStep_paths hp
          rw [altPaths_some hk, hih, hps]
          by_cases hka : k = chars "Alternative" <;>
            simp [hka, List.append_assoc]

/-- On success, the paths of the returned alternatives are exactly the values
of the "Alternative" keys of the input, in input order. -/
theorem parse_alt_order {s : List Char} {r : Alternatives}
    (h : parseString s = .ok r) :
    r.Alternatives.map Alternative.Path = altPaths s 0 := by
  have hh := parseLoopF_paths (s.length + 1) s 0 newAlternatives none r
    (by omega) h
  simpa [newAlternatives] using hh

/-! ### Single key-value lines and assorted trim facts -/

theorem readKeyValue_line {k v0 : List Char} (rest : List Char) (n : Nat)
    (hk : ':' ∉ k) (hnk : '\n' ∉ k) (hnv : '\n' ∉ v0)
    (hrest : rest.head? ≠ some ' ') :
    readKeyValue (k ++ ':' :: v0 ++ '\n' :: rest) n =
      .ok (some ((k, trimRightRN (trimLeftSp (trimRightRN v0))), rest, n + 1)) := by
  have hnl : '\n' ∉ k ++ ':' :: v0 := by
    intro hm
    rcases List.mem_append.1 hm with hm | hm
    · exact hnk hm
    · rcases List.mem_cons.1 hm with hm | hm
      · cases hm
      · exact hnv hm
  have hline : trimRightRN (k ++ ':' :: v0) = k ++ ':' :: trimRightRN v0 :=
    trimRightRN_append_mid k (by decide) (by decide)
  have hne : trimRightRN (k ++ ':' :: v0) ≠ [] := by
    rw [hline]
    simp
  have hs : seekLine ((k ++ ':' :: v0) ++ '\n' :: rest) n =
      some (k ++ ':' :: trimRightRN v0, rest, n + 1) := by
    rw [seekLine_step_line rest n hnl hne, hline]
  rw [show k ++ ':' :: v0 ++ '\n' :: rest = (k ++ ':' :: v0) ++ '\n' :: rest from by
    simp]
  rw [readKeyValue_split_some hs (splitFirst_find _ hk),
    readCont_stop _ _ hrest]

theorem readKeyValue_line_eof {k v0 : List Char} (n : Nat)
    (hk : ':' ∉ k) (hnk : '\n' ∉ k) (hnv : '\n' ∉ v0) :
    readKeyValue (k ++ ':' :: v0) n =
      .ok (some ((k, trimRightRN (trimLeftSp (trimRightRN v0))), [], n + 1)) := by
  have hnl : '\n' ∉ k ++ ':' :: v0 := by
    intro hm
    rcases List.mem_append.1 hm with hm | hm
    · exact hnk hm
    · rcases List.mem_cons.1 hm with hm | hm
      · cases hm
      · exact hnv hm
  have hline : trimRightRN (k ++ ':' :: v0) = k ++ ':' :: trimRightRN v0 :=
    trimRightRN_append_mid k (by decide) (by decide)
  have hne : trimRightRN (k ++ ':' :: v0) ≠ [] := by
    rw [hline]
    simp
  have hs : seekLine (k ++ ':' :: v0) n =
      some (k ++ ':' :: trimRightRN v0, [], n + 1) := by
    rw [seekLine_last n hnl hne, hline]
  rw [readKeyValue_split_some hs (splitFirst_find _ hk),
    readCont_stop _ _ (by simp)]

theorem dropWhile_idem (p : Char → Bool) (xs : List Char) :
    (xs.dropWhile p).dropWhile p = xs.dropWhile p := by
  induction xs with
  | nil => rfl
  | cons c cs ih =>
    by_cases hc : p c
    · rw [List.dropWhile_cons_of_pos hc, ih]
    · rw [List.dropWhile_cons_of_neg hc, List.dropWhile_cons_of_neg hc]

theorem trimRightRN_idem (l : List Char) :
    trimRightRN (trimRightRN l) = trimRightRN l := by
  unfold trimRightRN
  rw [List.reverse_reverse, dropWhile_idem]

theorem trimRightRN_append2 (a b : List Char) :
    trimRightRN (a ++ b) =
      if trimRightRN b = [] then trimRightRN a else a ++ trimRightRN b := by
  unfold trimRightRN
  rw [List.reverse_append, List.dropWhile_append]
  by_cases hb : (b.reverse.dropWhile (fun c => c == '\r' || c == '\n')).isEmpty
  · rw [if_pos hb]
    rw [if_pos (by rw [List.isEmpty_iff.1 hb]; rfl)]
  · rw [if_neg hb]
    rw [if_neg (by
      intro hc
      exact hb (by
        rw [show b.reverse.dropWhile (fun c => c == '\r' || c == '\n') =
          ((b.reverse.dropWhile (fun c => c == '\r' || c == '\n')).reverse).reverse
          from by rw [List.reverse_reverse], hc]
        rfl))]
    simp

theorem trimLeftSp_replicate_append (m : Nat) (x : List Char) :
    trimLeftSp (List.replicate m ' ' ++ x) = trimLeftSp x := by
  induction m with
  | zero => rfl
  | succ m ih =>
    rw [List.replicate_succ, List.cons_append]
    rw [show trimLeftSp (' ' :: (List.replicate m ' ' ++ x)) =
      trimLeftSp (List.replicate m ' ' ++ x) from by
        simp [trimLeftSp, List.dropWhile]]
    exact ih

theorem trimRightRN_head (l : List Char) (h : trimRightRN l ≠ []) :
    (trimRightRN l).head? = l.head? := by
  cases l with
  | nil => rfl
  | cons c cs =>
    have hsplit := trimRightRN_append2 [c] cs
    rw [List.singleton_append] at hsplit
    by_cases hcs : trimRightRN cs = []
    · rw [hsplit, if_pos hcs] at h ⊢
      by_cases hc : (c == '\r' || c == '\n') = true
      · exfalso
        apply h
        show (List.dropWhile (fun c => c == '\r' || c == '\n') [c].reverse).reverse = []
        rw [show ([c] : List Char).reverse = [c] from rfl]
        rw [show List.dropWhile (fun c => c == '\r' || c == '\n') [c] = [] from by
          simp only [List.dropWhile]
          rw [hc]]
        rfl
      · rw [show trimRightRN [c] = [c] from by
          show (List.dropWhile (fun c => c == '\r' || c == '\n') [c].reverse).reverse = [c]
          rw [show ([c] : List Char).reverse = [c] from rfl]
          rw [show List.dropWhile (fun c => c == '\r' || c == '\n') [c] = [c] from by
            simp only [List.dropWhile]
            rw [Bool.not_eq_true] at hc
            rw [hc]]
          rfl]
        rfl
    · rw [hsplit, if_neg hcs]
      rfl

theorem trimValue_spaces (m : Nat) {t : List Char} (hnt : '\n' ∉ t)
    (hht : t.head? ≠ some ' ') :
    trimRightRN (trimLeftSp (trimRightRN (List.replicate m ' ' ++ t))) =
      trimRightRN t := by
  rw [trimRightRN_append2]
  by_cases ht : trimRightRN t = []
  · rw [if_pos ht]
    rw [show trimRightRN (List.replicate m ' ') = List.replicate m ' ' from
      trimRightRN_eq_self
        (by intro hm; cases List.eq_of_mem_replicate hm)
        (by intro hm; cases List.eq_of_mem_replicate hm)]
    rw [show trimLeftSp (List.replicate m ' ') = [] from by
      have hx := trimLeftSp_replicate_append m []
      simpa using hx]
    rw [ht]
    rfl
  · rw [if_neg ht, trimLeftSp_replicate_append m (trimRightRN t)]
    rw [trimLeftSp_eq_self (by rw [trimRightRN_head t ht]; exact hht)]
    exact trimRightRN_idem t

theorem seekLine_nl_blanks : ∀ bs : List (List Char), ∀ rest : List Char,
    ∀ n : Nat, (∀ b ∈ bs, IsNL b) →
    seekLine (bs.flatten ++ rest) n = seekLine rest (n + bs.length) := by
  intro bs
  induction bs with
  | nil => intro rest n hbs; simp
  | cons b bs ih =>
    intro rest n hbs
    rcases hbs b (List.mem_cons_self _ _) with hb | hb
    · subst hb
      show seekLine (([] : List Char) ++ '\n' :: (bs.flatten ++ rest)) n = _
      rw [seekLine_step_blank _ n (by simp) (by rfl)]
      rw [ih rest (n + 1) (fun x hx => hbs x (List.mem_cons_of_mem _ hx))]
      congr 1
      simp
      omega
    · subst hb
      show seekLine ((['\r'] : List Char) ++ '\n' :: (bs.flatten ++ rest)) n = _
      rw [seekLine_step_blank _ n (by decide) (by decide)]
      rw [ih rest (n + 1) (fun x hx => hbs x (List.mem_cons_of_mem _ hx))]
      congr 1
      simp
      omega

/-! ### The claims -/

/-- C1: every input matching the section 6 grammar parses successfully, and
the resulting record's Name, Link, Status, Best, Value, each block's Path
and Priority, and each Slaves mapping are exactly the literal values written
in the input, the single space after each colon being part of the fixed line
prefix. -/
theorem C1_grammar_parse {s : List Char} {h : GHeader} {alts : List GAlt}
    (hm : Matches s h alts) : parseString s = .ok (toRecord h alts) :=
  matches_parse hm

set_option maxRecDepth 40000 in
theorem C1_grammar_parse_witness :
    Matches (renderPlan exPlan) exHeader [exAlt] ∧
      parseString (renderPlan exPlan) = .ok (toRecord exHeader [exAlt]) := by
  have hm : Matches (renderPlan exPlan) exHeader [exAlt] :=
    ⟨by decide, by decide, exPlan, [(1, exAlt)], 0, by decide, by decide,
      by decide, rfl⟩
  exact ⟨hm, C1_grammar_parse hm⟩

/-- C2: on success, the record's Alternatives sequence lists the entries in
exactly the order the "Alternative" keys appeared in the input (in
particular the entry still in progress at end of stream is the last
element), and the sequence is empty when the input has no "Alternative"
key. -/
theorem C2_alternatives_order {s : List Char} {r : Alternatives}
    (hp : parseString s = .ok r) :
    r.Alternatives.map Alternative.Path = altPaths s 0 ∧
      (altPaths s 0 = [] → r.Alternatives = []) := by
  have h1 := parse_alt_order hp
  exact ⟨h1, fun he => List.map_eq_nil_iff.mp (he ▸ h1)⟩

set_option maxRecDepth 20000 in
theorem C2_alternatives_order_witness :
    exOrderRec.Alternatives.map Alternative.Path = altPaths exOrderInput 0 ∧
      (altPaths exOrderInput 0 = [] → exOrderRec.Alternatives = []) :=
  C2_alternatives_order (by decide)

/-- C3: corrected — on the empty string the slave sub-parser does not return
an empty mapping: splitting the empty string on newlines yields one empty
entry, that entry has no separating space, and parseSlaves reports a
malformed-slaves-line error at the current line counter. -/
theorem C3_empty_slaves_is_error (n : Nat) :
    parseSlaves [] n = .error ⟨chars "malformed slaves line", n⟩ := rfl

theorem C3_empty_slaves_is_error_witness :
    parseSlaves [] 7 = .error ⟨chars "malformed slaves line", 7⟩ :=
  C3_empty_slaves_is_error 7

theorem C3_counterexample :
    parseSlaves [] 7 ≠ .ok [] ∧
      parseSlaves [] 7 = .error ⟨chars "malformed slaves line", 7⟩ :=
  ⟨by decide, by decide⟩

/-- C4: corrected — the value of a key line is left-trimmed of ALL leading
spaces (Go's TrimLeft with cutset " "), not of exactly one: a value written
with several spaces after the colon loses every one of them.  Trailing
carriage returns and newlines are removed on the right. -/
theorem C4_value_trim {k t : List Char} (m n : Nat)
    (hk : ':' ∉ k) (hnk : '\n' ∉ k) (hnt : '\n' ∉ t) (hht : t.head? ≠ some ' ') :
    readKeyValue (k ++ ':' :: (List.replicate m ' ' ++ t)) n =
      .ok (some ((k, trimRightRN t), [], n + 1)) := by
  have hnv : '\n' ∉ List.replicate m ' ' ++ t := by
    intro hm
    rcases List.mem_append.1 hm with hm | hm
    · cases List.eq_of_mem_replicate hm
    · exact hnt hm
  rw [readKeyValue_line_eof n hk hnk hnv, trimValue_spaces m hnt hht]

theorem C4_value_trim_witness :
    readKeyValue (chars "Name" ++ ':' :: (List.replicate 2 ' ' ++ chars "x")) 0 =
      .ok (some ((chars "Name", trimRightRN (chars "x")), [], 1)) :=
  C4_value_trim 2 0 (by decide) (by decide) (by decide) (by decide)

theorem C4_counterexample :
    readKeyValue (chars "Name:  x") 0 =
        .ok (some ((chars "Name", chars "x"), [], 1)) ∧
      readKeyValue (chars "Name:  x") 0 ≠
        .ok (some ((chars "Name", chars " x"), [], 1)) :=
  ⟨by decide, by decide⟩

/-- C5: an input whose first non-blank line has no colon fails with a
"malformed line" error carrying that line's 1-based number (blank lines
before it are counted), whether or not the line ends in a newline, and no
record is returned. -/
theorem C5_malformed_line {l : List Char} (bs : List (List Char))
    (rest : List Char) (hbs : ∀ b ∈ bs, IsNL b) (hnl : '\n' ∉ l)
    (hc : ':' ∉ trimRightRN l) (hne : trimRightRN l ≠ []) :
    parseString (bs.flatten ++ l ++ '\n' :: rest) =
        .error ⟨chars "malformed line", bs.length + 1⟩ ∧
      parseString (bs.flatten ++ l) =
        .error ⟨chars "malformed line", bs.length + 1⟩ := by
  have h0 : (0 : Nat) + bs.length = bs.length := by omega
  constructor
  · have hs : seekLine (bs.flatten ++ l ++ '\n' :: rest) 0 =
        some (trimRightRN l, rest, bs.length + 1) := by
      rw [show bs.flatten ++ l ++ '\n' :: rest =
          bs.flatten ++ (l ++ '\n' :: rest) from by simp]
      rw [seekLine_nl_blanks bs (l ++ '\n' :: rest) 0 hbs, h0]
      exact seekLine_step_line rest bs.length hnl hne
    exact parseLoop_error newAlternatives none
      (readKeyValue_split_none hs (splitFirst_not_mem hc))
  · have hs : seekLine (bs.flatten ++ l) 0 =
        some (trimRightRN l, [], bs.length + 1) := by
      rw [seekLine_nl_blanks bs l 0 hbs, h0]
      exact seekLine_last bs.length hnl hne
    exact parseLoop_error newAlternatives none
      (readKeyValue_split_none hs (splitFirst_not_mem hc))

theorem C5_malformed_line_witness :
    parseString (([['\n']] : List (List Char)).flatten ++
        chars "no such group" ++ '\n' :: []) =
        .error ⟨chars "malformed line", 2⟩ ∧
      parseString (([['\n']] : List (List Char)).flatten ++
        chars "no such group") =
        .error ⟨chars "malformed line", 2⟩ :=
  C5_malformed_line [['\n']] [] (by decide) (by decide) (by decide) (by decide)

/-- C6: once a "Priority" pair has been read in the in-alternative state, a
value that atoi rejects aborts the whole parse with an "invalid priority
value" error carrying the current line number (so no record is returned),
while a value atoi accepts — a negative one included — is stored as the
current entry's Priority and the parse continues. -/
theorem C6_priority {input rest v : List Char} {n m : Nat}
    (res : Alternatives) (alt : Alternative)
    (hr : readKeyValue input n = .ok (some ((chars "Priority", v), rest, m))) :
    (atoi v = none →
        parseLoop input n res (some alt) =
          .error ⟨chars "invalid priority value", m⟩) ∧
      ∀ p : Int, atoi v = some p →
        parseLoop input n res (some alt) =
          parseLoop rest m res (some { alt with Priority := p }) := by
  refine ⟨fun hv => ?_, fun p hv => ?_⟩
  · exact parseLoop_step_error res (some alt) hr
      (parseStep_priority_err m res alt hv)
  · exact parseLoop_step res (some alt) hr (parseStep_priority_ok m res alt hv)

set_option maxRecDepth 10000 in
theorem C6_priority_witness :
    parseLoop (chars "Priority: abc") 0 newAlternatives (some newAlternative) =
        .error ⟨chars "invalid priority value", 1⟩ ∧
      parseLoop (chars "Priority: -10") 0 newAlternatives (some newAlternative) =
        parseLoop [] 1 newAlternatives
          (some { newAlternative with Priority := -10 }) :=
  ⟨(@C6_priority (chars "Priority: abc") [] (chars "abc") 0 1
      newAlternatives newAlternative (by decide)).1 (by decide),
    (@C6_priority (chars "Priority: -10") [] (chars "-10") 0 1
      newAlternatives newAlternative (by decide)).2 (-10) (by decide)⟩

/-- C7: a key read in the wrong state aborts the parse with an error naming
the offending key and the current line number, and no record is returned: in
the header state every key other than Name, Link, Slaves, Status, Best,
Value, Alternative is rejected; in the in-alternative state every key other
than Priority, Slaves, Alternative is rejected. -/
theorem C7_unexpected_key {input rest k v : List Char} {n m : Nat}
    (res : Alternatives)
    (hr : readKeyValue input n = .ok (some ((k, v), rest, m))) :
    (k ≠ chars "Name" → k ≠ chars "Link" → k ≠ chars "Slaves" →
      k ≠ chars "Status" → k ≠ chars "Best" → k ≠ chars "Value" →
      k ≠ chars "Alternative" →
        parseLoop input n res none =
          .error ⟨chars "unexpected key: " ++ k, m⟩) ∧
      ∀ alt : Alternative, k ≠ chars "Priority" → k ≠ chars "Slaves" →
        k ≠ chars "Alternative" →
          parseLoop input n res (some alt) =
            .error ⟨chars "unexpected key: " ++ k, m⟩ := by
  refine ⟨fun h1 h2 h3 h4 h5 h6 h7 => ?_, fun alt h1 h2 h3 => ?_⟩
  · exact parseLoop_step_error res none hr
      (parseStep_header_unknown v m res h1 h2 h3 h4 h5 h6 h7)
  · exact parseLoop_step_error res (some alt) hr
      (parseStep_alt_unknown v m res alt h1 h2 h3)

set_option maxRecDepth 10000 in
theorem C7_unexpected_key_witness :
    parseLoop (chars "Priority: 10") 0 newAlternatives none =
        .error ⟨chars "unexpected key: " ++ chars "Priority", 1⟩ ∧
      parseLoop (chars "Name: x") 0 newAlternatives (some newAlternative) =
        .error ⟨chars "unexpected key: " ++ chars "Name", 1⟩ :=
  ⟨(@C7_unexpected_key (chars "Priority: 10") [] (chars "Priority")
      (chars "10") 0 1 newAlternatives (by decide)).1 (by decide) (by decide)
      (by decide) (by decide) (by decide) (by decide) (by decide),
    (@C7_unexpected_key (chars "Name: x") [] (chars "Name") (chars "x") 0 1
      newAlternatives (by decide)).2 newAlternative (by decide)
      (by decide) (by decide)⟩

/-- C8: replacing every LF of the input by CRLF leaves the parse result
unchanged — the same record on success and the same error on failure. -/
theorem C8_crlf_equiv (s : List Char) : parseString (crlf s) = parseString s :=
  parseString_crlf_eq s

/-- C9: end of stream is not an error: a final key-value line with no
trailing newline still yields its pair, after which the parse completes
normally with the pair included; and end of stream reached while seeking a
new pair (nothing buffered) terminates the loop normally with the finalized
record. -/
theorem C9_eof_handling {k v0 : List Char} (n : Nat) (res : Alternatives)
    (cur : Option Alternative)
    (hk : ':' ∉ k) (hnk : '\n' ∉ k) (hnv : '\n' ∉ v0) :
    readKeyValue (k ++ ':' :: v0) n =
        .ok (some ((k, trimRightRN (trimLeftSp (trimRightRN v0))), [], n + 1)) ∧
      (∀ res' cur',
        parseStep k (trimRightRN (trimLeftSp (trimRightRN v0))) (n + 1) res cur =
            .ok (res', cur') →
          parseLoop (k ++ ':' :: v0) n res cur = .ok (finalize res' cur')) ∧
      parseLoop [] n res cur = .ok (finalize res cur) := by
  have hr := readKeyValue_line_eof n hk hnk hnv
  refine ⟨hr, fun res' cur' hstep => ?_,
    parseLoop_eof res cur (readKeyValue_nil n)⟩
  rw [parseLoop_step res cur hr hstep]
  exact parseLoop_eof res' cur' (readKeyValue_nil (n + 1))

set_option maxRecDepth 10000 in
theorem C9_eof_handling_witness :
    parseLoop (chars "Value" ++ ':' :: chars " /x") 0 newAlternatives none =
        .ok (finalize { newAlternatives with Value := chars "/x" } none) ∧
      parseLoop [] 0 newAlternatives none = .ok (finalize newAlternatives none) ∧
      (finalize { newAlternatives with Value := chars "/x" } none).Alternatives =
        [] :=
  ⟨(@C9_eof_handling (chars "Value") (chars " /x") 0 newAlternatives none
        (by decide) (by decide) (by decide)).2.1
      { newAlternatives with Value := chars "/x" } none (by decide),
    (@C9_eof_handling (chars "Value") (chars " /x") 0 newAlternatives none
        (by decide) (by decide) (by decide)).2.2,
    rfl⟩

/-- C10: the empty input — and, more generally, input made of blank lines
only — parses successfully to the fresh record: every string field is empty,
the Slaves mapping is empty, and the Alternatives sequence is empty; no
header field is required to be present. -/
theorem C10_empty_input (bs : List (List Char)) (hbs : ∀ b ∈ bs, IsNL b) :
    parseString bs.flatten = .ok newAlternatives ∧
      newAlternatives = ⟨[], [], [], [], [], [], []⟩ := by
  refine ⟨?_, rfl⟩
  have hs : seekLine bs.flatten 0 = none := by
    rw [show bs.flatten = bs.flatten ++ [] from by simp]
    rw [seekLine_nl_blanks bs [] 0 hbs]
    exact seekLine_nil _
  exact parseLoop_eof newAlternatives none (readKeyValue_none hs)

theorem C10_empty_input_witness :
    parseString (([['\n'], ['\r', '\n']] : List (List Char)).flatten) =
        .ok newAlternatives ∧
      parseString [] = .ok newAlternatives ∧
      newAlternatives = ⟨[], [], [], [], [], [], []⟩ :=
  ⟨(C10_empty_input [['\n'], ['\r', '\n']] (by decide)).1,
    (C10_empty_input [] (by decide)).1, rfl⟩

end QueryAlternatives
